import Mathlib

/-!
Verification of the word-frequency dataset pipelines
(`datasets/{books,tv_shows,TV_shows,lyrics}` build/parse scripts).

The Python scripts are embedded shallowly:

* Python `str` values are Lean `String`s; Python's code-point
  lexicographic comparison is embedded as `lexLt`/`lexLe` over the
  underlying character lists (Lean's builtin `String` order does not
  reduce in the kernel, so the order is spelled out from scratch —
  it agrees with Python's `<` on `str`, which compares code points).
* Python `dict`s are association lists in insertion order; `set`s are
  lists whose iteration order is arbitrary (theorems about set-order
  independence quantify over permutations of those lists).
* Python's `sorted`/`list.sort` is a stable sort with respect to the
  key comparison; `sortBy` below is an insertion sort, which is also
  stable, hence produces the same list.
* `sys.exit(1)` is `Except.error`; reaching the end of `main`
  normally is `Except.ok` / a returned value.
-/

/-- Python comparison of single characters: by code point. -/
def charLt (a b : Char) : Bool := decide (a.toNat < b.toNat)

/-- Python `<` on strings viewed as lists of characters
(lexicographic by code point). -/
def lexLt : List Char → List Char → Bool
  | _, [] => false
  | [], _ :: _ => true
  | a :: as, b :: bs => charLt a b || (a == b && lexLt as bs)

/-- `a <= b` for Python strings, as the negation of `b < a`. -/
def lexLe (a b : List Char) : Bool := !(lexLt b a)

/-- Python `a < b` on `str`. -/
def strLt (a b : String) : Bool := lexLt a.data b.data

/-- Python `a <= b` on `str`. -/
def strLe (a b : String) : Bool := lexLe a.data b.data

theorem charLt_asymm {a b : Char} (h : charLt a b = true) : charLt b a = false := by
  simp only [charLt, decide_eq_true_eq] at h
  simp only [charLt, decide_eq_false_iff_not, not_lt]
  omega

theorem charLt_trans {a b c : Char} (h₁ : charLt a b = true) (h₂ : charLt b c = true) :
    charLt a c = true := by
  simp only [charLt, decide_eq_true_eq] at h₁ h₂ ⊢
  omega

theorem char_eq_of_not_lt {a b : Char} (h₁ : charLt a b = false) (h₂ : charLt b a = false) :
    a = b := by
  simp only [charLt, decide_eq_false_iff_not, not_lt] at h₁ h₂
  have hn : a.toNat = b.toNat := le_antisymm h₂ h₁
  exact Char.eq_of_val_eq (UInt32.ext hn)

theorem charLt_irrefl (a : Char) : charLt a a = false := by
  simp [charLt]

theorem lexLt_irrefl (l : List Char) : lexLt l l = false := by
  induction l with
  | nil => rfl
  | cons a as ih => simp [lexLt, charLt_irrefl, ih]

theorem lexLt_asymm : ∀ {a b : List Char}, lexLt a b = true → lexLt b a = false
  | _, [], h => by simp [lexLt] at h
  | [], _ :: _, _ => by simp [lexLt]
  | a :: as, b :: bs, h => by
    simp only [lexLt, Bool.or_eq_true, Bool.and_eq_true, beq_iff_eq] at h
    simp only [lexLt, Bool.or_eq_false_iff, Bool.and_eq_false_iff]
    rcases h with h | ⟨he, h⟩
    · refine ⟨charLt_asymm h, Or.inl ?_⟩
      simp only [beq_eq_false_iff_ne, ne_eq]
      intro hba
      subst hba
      rw [charLt_irrefl] at h
      exact Bool.noConfusion h
    · subst he
      exact ⟨charLt_irrefl a, Or.inr (lexLt_asymm h)⟩

theorem lexLt_trans : ∀ {a b c : List Char},
    lexLt a b = true → lexLt b c = true → lexLt a c = true
  | _, _, [], _, h₂ => by simp [lexLt] at h₂
  | _, [], _ :: _, h₁, _ => by simp [lexLt] at h₁
  | [], _ :: _, _ :: _, _, _ => by simp [lexLt]
  | a :: as, b :: bs, c :: cs, h₁, h₂ => by
    simp only [lexLt, Bool.or_eq_true, Bool.and_eq_true, beq_iff_eq] at h₁ h₂ ⊢
    rcases h₁ with h₁ | ⟨rfl, h₁⟩
    · rcases h₂ with h₂ | ⟨rfl, h₂⟩
      · exact Or.inl (charLt_trans h₁ h₂)
      · exact Or.inl h₁
    · rcases h₂ with h₂ | ⟨rfl, h₂⟩
      · exact Or.inl h₂
      · exact Or.inr ⟨rfl, lexLt_trans h₁ h₂⟩

theorem lex_eq_of_not_lt : ∀ {a b : List Char},
    lexLt a b = false → lexLt b a = false → a = b
  | [], [], _, _ => rfl
  | [], _ :: _, h₁, _ => by simp [lexLt] at h₁
  | _ :: _, [], _, h₂ => by simp [lexLt] at h₂
  | a :: as, b :: bs, h₁, h₂ => by
    simp only [lexLt, Bool.or_eq_false_iff, Bool.and_eq_false_iff] at h₁ h₂
    obtain ⟨hab, h₁⟩ := h₁
    obtain ⟨hba, h₂⟩ := h₂
    have hcab : a = b := char_eq_of_not_lt hab hba
    subst hcab
    rcases h₁ with h₁ | h₁
    · simp at h₁
    · rcases h₂ with h₂ | h₂
      · simp at h₂
      · exact congrArg _ (lex_eq_of_not_lt h₁ h₂)

theorem lexLe_total (a b : List Char) : lexLe a b = true ∨ lexLe b a = true := by
  simp only [lexLe, Bool.not_eq_true']
  cases h : lexLt b a with
  | false => exact Or.inl rfl
  | true => exact Or.inr (lexLt_asymm h)

theorem lexLt_or_eq_of_not_lt {a b : List Char} (h : lexLt b a = false) :
    lexLt a b = true ∨ a = b := by
  cases hab : lexLt a b with
  | true => exact Or.inl rfl
  | false => exact Or.inr (lex_eq_of_not_lt hab h)

theorem lexLe_trans {a b c : List Char} (h₁ : lexLe a b = true) (h₂ : lexLe b c = true) :
    lexLe a c = true := by
  simp only [lexLe, Bool.not_eq_true'] at h₁ h₂ ⊢
  rcases lexLt_or_eq_of_not_lt h₁ with hab | rfl
  · rcases lexLt_or_eq_of_not_lt h₂ with hbc | rfl
    · exact lexLt_asymm (lexLt_trans hab hbc)
    · exact lexLt_asymm hab
  · exact h₂

theorem lexLe_antisymm {a b : List Char} (h₁ : lexLe a b = true) (h₂ : lexLe b a = true) :
    a = b := by
  simp only [lexLe, Bool.not_eq_true'] at h₁ h₂
  exact lex_eq_of_not_lt h₂ h₁

theorem string_data_inj : ∀ {a b : String}, a.data = b.data → a = b
  | ⟨_⟩, ⟨_⟩, h => congrArg String.mk (by simpa using h)

theorem strLe_total (a b : String) : strLe a b = true ∨ strLe b a = true :=
  lexLe_total a.data b.data

theorem strLe_trans {a b c : String} (h₁ : strLe a b = true) (h₂ : strLe b c = true) :
    strLe a c = true :=
  lexLe_trans h₁ h₂

theorem strLe_antisymm {a b : String} (h₁ : strLe a b = true) (h₂ : strLe b a = true) :
    a = b :=
  string_data_inj (lexLe_antisymm h₁ h₂)

theorem strLt_of_strLe_of_ne {a b : String} (h : strLe a b = true) (hne : a ≠ b) :
    strLt a b = true := by
  simp only [strLe, lexLe, Bool.not_eq_true'] at h
  rcases lexLt_or_eq_of_not_lt h with h' | h'
  · exact h'
  · exact absurd (string_data_inj h') hne

/-- Stable insertion of `a` into a list (the insertion step of a stable
sort): `a` goes in front of the first element it compares `le` to. -/
def insertSorted (le : α → α → Bool) (a : α) : List α → List α
  | [] => [a]
  | b :: bs => if le a b then a :: b :: bs else b :: insertSorted le a bs

/-- Stable sort by a boolean comparison.  Python's `sorted(xs, key=k)` is
a stable sort with respect to `le x y := k x <= k y`; any stable sort
(Timsort there, insertion sort here) produces the same list, so this is
a faithful embedding of `sorted`. -/
def sortBy (le : α → α → Bool) : List α → List α
  | [] => []
  | a :: as => insertSorted le a (sortBy le as)

theorem perm_insertSorted (le : α → α → Bool) (a : α) :
    ∀ l : List α, (insertSorted le a l).Perm (a :: l)
  | [] => List.Perm.refl _
  | b :: bs => by
    simp only [insertSorted]
    split
    · exact List.Perm.refl _
    · exact ((perm_insertSorted le a bs).cons b).trans (List.Perm.swap a b bs)

theorem perm_sortBy (le : α → α → Bool) : ∀ l : List α, (sortBy le l).Perm l
  | [] => List.Perm.refl _
  | a :: as =>
    (perm_insertSorted le a (sortBy le as)).trans ((perm_sortBy le as).cons a)

theorem mem_sortBy {le : α → α → Bool} {l : List α} {a : α} :
    a ∈ sortBy le l ↔ a ∈ l :=
  (perm_sortBy le l).mem_iff

theorem pairwise_insertSorted {le : α → α → Bool}
    (htot : ∀ a b, le a b = true ∨ le b a = true)
    (htrans : ∀ a b c, le a b = true → le b c = true → le a c = true) {a : α} :
    ∀ {l : List α}, l.Pairwise (fun x y => le x y = true) →
      (insertSorted le a l).Pairwise (fun x y => le x y = true)
  | [], _ => by simp [insertSorted]
  | b :: bs, h => by
    simp only [insertSorted]
    split
    next hab =>
      refine h.cons ?_
      intro x hx
      rcases List.mem_cons.mp hx with rfl | hx
      · exact hab
      · rcases List.pairwise_cons.mp h with ⟨hb, _⟩
        exact htrans a b x hab (hb x hx)
    next hab =>
      rcases List.pairwise_cons.mp h with ⟨hb, hbs⟩
      have hba : le b a = true := (htot a b).resolve_left (by simpa using hab)
      refine List.pairwise_cons.mpr ⟨?_, pairwise_insertSorted htot htrans hbs⟩
      intro x hx
      rw [(perm_insertSorted le a bs).mem_iff] at hx
      rcases List.mem_cons.mp hx with rfl | hx
      · exact hba
      · exact hb x hx

theorem pairwise_sortBy {le : α → α → Bool}
    (htot : ∀ a b, le a b = true ∨ le b a = true)
    (htrans : ∀ a b c, le a b = true → le b c = true → le a c = true) :
    ∀ l : List α, (sortBy le l).Pairwise (fun x y => le x y = true)
  | [] => List.Pairwise.nil
  | a :: as => pairwise_insertSorted htot htrans (pairwise_sortBy htot htrans as)

/-- Two lists that are permutations of each other, both sorted by `le`,
agree as soon as `le` is antisymmetric on the elements involved.  This is
what makes the combiners' outputs canonical (independent of `set`/`dict`
iteration order): sorting the same collection of rows always yields the
same list. -/
theorem eq_of_perm_of_pairwise {le : α → α → Bool} :
    ∀ {l₁ l₂ : List α}, l₁.Perm l₂ →
      l₁.Pairwise (fun x y => le x y = true) →
      l₂.Pairwise (fun x y => le x y = true) →
      (∀ a b, a ∈ l₁ → b ∈ l₁ → le a b = true → le b a = true → a = b) →
      l₁ = l₂
  | [], l₂, hp, _, _, _ => (hp.symm.eq_nil).symm
  | a :: t₁, [], hp, _, _, _ => (List.cons_ne_nil a t₁ hp.eq_nil).elim
  | a :: t₁, b :: t₂, hp, p₁, p₂, hanti => by
    rcases List.pairwise_cons.mp p₁ with ⟨ha, pt₁⟩
    rcases List.pairwise_cons.mp p₂ with ⟨hb, pt₂⟩
    by_cases hab : a = b
    · subst hab
      have ht : t₁.Perm t₂ := hp.cons_inv
      have : t₁ = t₂ := eq_of_perm_of_pairwise ht pt₁ pt₂
        (fun x y hx hy => hanti x y (List.mem_cons_of_mem _ hx) (List.mem_cons_of_mem _ hy))
      rw [this]
    · have hamem : a ∈ b :: t₂ := hp.subset (List.mem_cons_self a t₁)
      have hbmem : b ∈ a :: t₁ := hp.symm.subset (List.mem_cons_self b t₂)
      have hat₂ : a ∈ t₂ := by
        rcases List.mem_cons.mp hamem with h | h
        · exact absurd h hab
        · exact h
      have hbt₁ : b ∈ t₁ := by
        rcases List.mem_cons.mp hbmem with h | h
        · exact absurd h.symm hab
        · exact h
      exact absurd (hanti a b (List.mem_cons_self a t₁) (List.mem_cons_of_mem _ hbt₁)
        (ha b hbt₁) (hb a hat₂)) hab

/-- The comparison behind every `sorted(..., key=lambda r: (-count(r), word(r)))`
in the combiners: higher count first, alphabetical (code-point) order on
the word for ties. -/
def rowLe (word : α → String) (cnt : α → Nat) (a b : α) : Bool :=
  decide (cnt b < cnt a) || (cnt a == cnt b && strLe (word a) (word b))

theorem rowLe_total (word : α → String) (cnt : α → Nat) (a b : α) :
    rowLe word cnt a b = true ∨ rowLe word cnt b a = true := by
  simp only [rowLe, Bool.or_eq_true, Bool.and_eq_true, decide_eq_true_eq, beq_iff_eq]
  rcases Nat.lt_trichotomy (cnt a) (cnt b) with h | h | h
  · exact Or.inr (Or.inl h)
  · rcases strLe_total (word a) (word b) with hs | hs
    · exact Or.inl (Or.inr ⟨h, hs⟩)
    · exact Or.inr (Or.inr ⟨h.symm, hs⟩)
  · exact Or.inl (Or.inl h)

theorem rowLe_trans (word : α → String) (cnt : α → Nat) (a b c : α)
    (h₁ : rowLe word cnt a b = true) (h₂ : rowLe word cnt b c = true) :
    rowLe word cnt a c = true := by
  simp only [rowLe, Bool.or_eq_true, Bool.and_eq_true, decide_eq_true_eq,
    beq_iff_eq] at h₁ h₂ ⊢
  rcases h₁ with h₁ | ⟨he₁, hs₁⟩
  · rcases h₂ with h₂ | ⟨he₂, _⟩
    · exact Or.inl (h₂.trans h₁)
    · exact Or.inl (he₂ ▸ h₁)
  · rcases h₂ with h₂ | ⟨he₂, hs₂⟩
    · exact Or.inl (he₁ ▸ h₂)
    · exact Or.inr ⟨he₁.trans he₂, strLe_trans hs₁ hs₂⟩

theorem rowLe_antisymm_key (word : α → String) (cnt : α → Nat) {a b : α}
    (h₁ : rowLe word cnt a b = true) (h₂ : rowLe word cnt b a = true) :
    word a = word b := by
  simp only [rowLe, Bool.or_eq_true, Bool.and_eq_true, decide_eq_true_eq,
    beq_iff_eq] at h₁ h₂
  rcases h₁ with h₁ | ⟨he₁, hs₁⟩
  · rcases h₂ with h₂ | ⟨he₂, _⟩
    · exact absurd (h₂.trans h₁) (lt_irrefl _)
    · exact absurd (he₂ ▸ h₁) (lt_irrefl _)
  · rcases h₂ with h₂ | ⟨he₂, hs₂⟩
    · exact absurd (he₁ ▸ h₂) (lt_irrefl _)
    · exact strLe_antisymm hs₁ hs₂

/-- Consecutive rows of any sorted report are strictly ordered:
count strictly decreases, or counts tie and the words strictly increase
alphabetically — provided no two rows carry the same word. -/
theorem chain'_sortBy_rows (word : α → String) (cnt : α → Nat) (l : List α)
    (h : l.Pairwise (fun a b => word a ≠ word b)) :
    (sortBy (rowLe word cnt) l).Chain'
      (fun a b => cnt b < cnt a ∨ (cnt a = cnt b ∧ strLt (word a) (word b))) := by
  have hsorted := pairwise_sortBy (rowLe_total word cnt) (rowLe_trans word cnt) l
  have hne : (sortBy (rowLe word cnt) l).Pairwise (fun a b => word a ≠ word b) :=
    ((perm_sortBy (rowLe word cnt) l).pairwise_iff (fun h' => h'.symm)).mpr h
  refine (hsorted.and hne).imp ?_ |>.chain'
  rintro a b ⟨hle, hwne⟩
  simp only [rowLe, Bool.or_eq_true, Bool.and_eq_true, decide_eq_true_eq,
    beq_iff_eq] at hle
  rcases hle with h' | ⟨he, hs⟩
  · exact Or.inl h'
  · exact Or.inr ⟨he, strLt_of_strLe_of_ne hs hwne⟩

/-- Sorting is canonical: two permutations of the same rows sort to the
same list, as long as a row is determined by its word. -/
theorem sortBy_rows_eq_of_perm (word : α → String) (cnt : α → Nat)
    {l₁ l₂ : List α} (hp : l₁.Perm l₂)
    (hkey : ∀ a b, a ∈ l₁ → b ∈ l₁ → word a = word b → a = b) :
    sortBy (rowLe word cnt) l₁ = sortBy (rowLe word cnt) l₂ := by
  refine eq_of_perm_of_pairwise
    (((perm_sortBy _ l₁).trans hp).trans (perm_sortBy _ l₂).symm)
    (pairwise_sortBy (rowLe_total word cnt) (rowLe_trans word cnt) l₁)
    (pairwise_sortBy (rowLe_total word cnt) (rowLe_trans word cnt) l₂) ?_
  intro a b ha hb h₁ h₂
  exact hkey a b (mem_sortBy.mp ha) (mem_sortBy.mp hb) (rowLe_antisymm_key word cnt h₁ h₂)

/-- The keys of a Python `dict` modelled as an association list. -/
def keysOf (m : List (κ × β)) : List κ := m.map Prod.fst

/-- `m[k]` / `m.get(k)` on a `dict` modelled as an association list. -/
def lookupA [DecidableEq κ] (k : κ) : List (κ × β) → Option β
  | [] => none
  | p :: rest => if p.1 = k then some p.2 else lookupA k rest

theorem lookupA_eq_none_iff [DecidableEq κ] {k : κ} :
    ∀ {m : List (κ × β)}, lookupA k m = none ↔ k ∉ keysOf m
  | [] => by simp [lookupA, keysOf]
  | p :: rest => by
    simp only [lookupA, keysOf, List.map_cons, List.mem_cons]
    split
    next h => subst h; simp
    next h =>
      rw [lookupA_eq_none_iff]
      simp only [keysOf]
      constructor
      · rintro h' (h'' | h'')
        · exact h h''.symm
        · exact h' h''
      · intro h' h''
        exact h' (Or.inr h'')

theorem lookupA_isSome_iff [DecidableEq κ] {k : κ} {m : List (κ × β)} :
    (lookupA k m).isSome = true ↔ k ∈ keysOf m := by
  rw [← Decidable.not_iff_not, ← lookupA_eq_none_iff]
  cases lookupA k m <;> simp

theorem mem_of_lookupA [DecidableEq κ] {k : κ} {v : β} :
    ∀ {m : List (κ × β)}, lookupA k m = some v → (k, v) ∈ m
  | [], h => by simp [lookupA] at h
  | p :: rest, h => by
    simp only [lookupA] at h
    split at h
    next he =>
      obtain rfl : p.2 = v := Option.some_inj.mp h
      simp [← he]
    next => exact List.mem_cons_of_mem _ (mem_of_lookupA h)

theorem lookupA_of_mem_nodup [DecidableEq κ] {k : κ} {v : β} :
    ∀ {m : List (κ × β)}, (keysOf m).Nodup → (k, v) ∈ m → lookupA k m = some v
  | [], _, h => by simp at h
  | p :: rest, hnd, h => by
    simp only [keysOf, List.map_cons, List.nodup_cons] at hnd
    rcases List.mem_cons.mp h with rfl | h'
    · simp [lookupA]
    · have hk : k ∈ keysOf rest := List.mem_map_of_mem Prod.fst h'
      have hne : p.1 ≠ k := by
        rintro rfl
        exact hnd.1 (by simpa [keysOf] using hk)
      simp only [lookupA, if_neg hne]
      exact lookupA_of_mem_nodup (by simpa [keysOf] using hnd.2) h'

theorem mem_iff_lookupA [DecidableEq κ] {k : κ} {v : β} {m : List (κ × β)}
    (hnd : (keysOf m).Nodup) : (k, v) ∈ m ↔ lookupA k m = some v :=
  ⟨lookupA_of_mem_nodup hnd, mem_of_lookupA⟩

/-- `word_books[w].append(tag)` on a `defaultdict(list)` /
`word_artists.setdefault(w, []).append(tag)`: append `tag` to the entry
of `w`, creating the entry at the end if absent. -/
def upsertApp (m : List (String × List String)) (w tag : String) :
    List (String × List String) :=
  match m with
  | [] => [(w, [tag])]
  | p :: rest => if p.1 = w then (p.1, p.2 ++ [tag]) :: rest else p :: upsertApp rest w tag

theorem lookupA_upsertApp (m : List (String × List String)) (w tag w' : String) :
    lookupA w' (upsertApp m w tag) =
      if w' = w then some ((lookupA w m).getD [] ++ [tag]) else lookupA w' m := by
  induction m with
  | nil =>
    by_cases h : w' = w
    · simp [upsertApp, lookupA, h]
    · simp only [upsertApp, lookupA, if_neg h]
      rw [if_neg (fun hh : w = w' => h hh.symm)]
  | cons p rest ih =>
    simp only [upsertApp]
    by_cases hp : p.1 = w
    · by_cases h : w' = w
      · subst h
        simp [lookupA, hp, if_pos hp]
      · have h' : ¬ w = w' := fun hh => h hh.symm
        simp [lookupA, hp, h, h']
    · simp only [if_neg hp, lookupA]
      by_cases hq : p.1 = w'
      · have : ¬ w' = w := fun h => hp (hq.trans h)
        simp [hq, this]
      · simp [hq, ih]

theorem keysOf_upsertApp (m : List (String × List String)) (w tag : String) :
    keysOf (upsertApp m w tag) =
      if w ∈ keysOf m then keysOf m else keysOf m ++ [w] := by
  induction m with
  | nil => simp [upsertApp, keysOf]
  | cons p rest ih =>
    simp only [upsertApp]
    by_cases hp : p.1 = w
    · simp [keysOf, hp]
    · simp only [if_neg hp, keysOf, List.map_cons, List.mem_cons]
      have : ¬ w = p.1 := fun h => hp h.symm
      by_cases hm : w ∈ keysOf rest
      · simp only [keysOf] at hm ih
        simp [hm, this, ih]
      · simp only [keysOf] at hm ih
        simp [hm, this, ih]

theorem nodup_keysOf_upsertApp {m : List (String × List String)} {w tag : String}
    (h : (keysOf m).Nodup) : (keysOf (upsertApp m w tag)).Nodup := by
  rw [keysOf_upsertApp]
  split
  · exact h
  next hw => simpa [List.nodup_append, hw] using h

/-- One item's contribution: `for w in words: bag[w].append(tag)`. -/
def tagStep (m : List (String × List String)) (p : String × List String) :
    List (String × List String) :=
  p.2.foldl (fun m w => upsertApp m w p.1) m

/-- The whole accumulation loop of `build_pool.py` (`word_books`) and
`build_common_words.py` (`word_artists`): every item appends its tag to
the entry of each of its words. -/
def tagFold (items : List (String × List String)) : List (String × List String) :=
  items.foldl tagStep []

/-- The tags a word collects: the labels of the items whose word list
contains it, in item order. -/
def tagsOf (items : List (String × List String)) (w : String) : List String :=
  items.filterMap (fun p => if w ∈ p.2 then some p.1 else none)

theorem lookupA_foldl_upsert (tag : String) :
    ∀ (ws : List String), ws.Nodup → ∀ (m : List (String × List String)) (w : String),
      lookupA w (ws.foldl (fun m x => upsertApp m x tag) m) =
        if w ∈ ws then some ((lookupA w m).getD [] ++ [tag]) else lookupA w m
  | [], _, m, w => by simp
  | x :: rest, hnd, m, w => by
    simp only [List.foldl_cons]
    rw [lookupA_foldl_upsert tag rest (List.nodup_cons.mp hnd).2]
    by_cases hw : w = x
    · subst hw
      have : w ∉ rest := (List.nodup_cons.mp hnd).1
      simp [this, lookupA_upsertApp]
    · by_cases hr : w ∈ rest
      · simp [hr, hw, lookupA_upsertApp, List.mem_cons]
      · simp [hr, hw, lookupA_upsertApp, List.mem_cons]

theorem nodup_keysOf_foldl_upsert (tag : String) :
    ∀ (ws : List String) (m : List (String × List String)),
      (keysOf m).Nodup → (keysOf (ws.foldl (fun m x => upsertApp m x tag) m)).Nodup
  | [], _, h => h
  | x :: rest, m, h =>
    nodup_keysOf_foldl_upsert tag rest _ (nodup_keysOf_upsertApp h)

theorem lookupA_foldl_tagStep :
    ∀ (items : List (String × List String)), (∀ p ∈ items, p.2.Nodup) →
      ∀ (m : List (String × List String)) (w : String),
        lookupA w (items.foldl tagStep m) =
          match lookupA w m with
          | some ls => some (ls ++ tagsOf items w)
          | none => if tagsOf items w = [] then none else some (tagsOf items w)
  | [], _, m, w => by cases h : lookupA w m <;> simp [tagsOf, h]
  | p :: rest, hnd, m, w => by
    simp only [List.foldl_cons]
    rw [lookupA_foldl_tagStep rest (fun q hq => hnd q (List.mem_cons_of_mem _ hq))]
    have hstep : lookupA w (tagStep m p) =
        if w ∈ p.2 then some ((lookupA w m).getD [] ++ [p.1]) else lookupA w m := by
      exact lookupA_foldl_upsert p.1 p.2 (hnd p (List.mem_cons_self _ _)) m w
    have htags : tagsOf (p :: rest) w =
        (if w ∈ p.2 then [p.1] else []) ++ tagsOf rest w := by
      simp only [tagsOf, List.filterMap_cons]
      split <;> simp_all
    rw [hstep, htags]
    by_cases hw : w ∈ p.2
    · cases h : lookupA w m <;> simp [hw, h]
    · cases h : lookupA w m
      · simp only [hw, if_false, h]
        by_cases ht : tagsOf rest w = [] <;> simp [ht]
      · simp [hw, h]

theorem lookupA_tagFold {items : List (String × List String)}
    (hnd : ∀ p ∈ items, p.2.Nodup) (w : String) :
    lookupA w (tagFold items) =
      if tagsOf items w = [] then none else some (tagsOf items w) := by
  have := lookupA_foldl_tagStep items hnd [] w
  simpa [tagFold, lookupA] using this

theorem nodup_keysOf_foldl_tagStep :
    ∀ (items : List (String × List String)) (m : List (String × List String)),
      (keysOf m).Nodup → (keysOf (items.foldl tagStep m)).Nodup
  | [], _, h => h
  | p :: rest, m, h =>
    nodup_keysOf_foldl_tagStep rest _ (nodup_keysOf_foldl_upsert p.1 p.2 m h)

theorem nodup_keysOf_tagFold (items : List (String × List String)) :
    (keysOf (tagFold items)).Nodup :=
  nodup_keysOf_foldl_tagStep items [] (by simp [keysOf])

theorem mem_tagFold_iff {items : List (String × List String)}
    (hnd : ∀ p ∈ items, p.2.Nodup) {w : String} {ls : List String} :
    (w, ls) ∈ tagFold items ↔ tagsOf items w ≠ [] ∧ ls = tagsOf items w := by
  rw [mem_iff_lookupA (nodup_keysOf_tagFold items), lookupA_tagFold hnd]
  split
  next h => simp [h]
  next h =>
    constructor
    · intro h'
      exact ⟨h, (Option.some_inj.mp h').symm⟩
    · rintro ⟨_, rfl⟩
      rfl

theorem perm_tagFold {items₁ items₂ : List (String × List String)}
    (h₁ : ∀ p ∈ items₁, p.2.Nodup) (h₂ : ∀ p ∈ items₂, p.2.Nodup)
    (htags : ∀ w, tagsOf items₁ w = tagsOf items₂ w) :
    (tagFold items₁).Perm (tagFold items₂) := by
  have hn₁ : (tagFold items₁).Nodup :=
    (nodup_keysOf_tagFold items₁).of_map Prod.fst
  have hn₂ : (tagFold items₂).Nodup :=
    (nodup_keysOf_tagFold items₂).of_map Prod.fst
  rw [List.perm_ext_iff_of_nodup hn₁ hn₂]
  rintro ⟨w, ls⟩
  rw [mem_tagFold_iff h₁, mem_tagFold_iff h₂, htags w]

/-! ## `build_pool.py` (books and TV-show variants share this code)

One configured source item of `build_pool.py`: its display label, the
content of its `words.txt` (`None` when the file does not exist — the
item is then skipped with a warning), and the word column of its
`exclude.csv` (`None` when absent, treated as the empty set).  The word
lists stand for Python `set`s, so their order is arbitrary and theorems
quantify over permutations. -/
structure PoolItem where
  label : String
  wordsFile : Option (List String)
  excludeFile : Option (List String)

/-- `clean = all_words - exclude`. -/
def cleanWords (ws excl : List String) : List String :=
  ws.filter (fun w => decide (w ∉ excl))

/-- The `(label, clean)` pairs of the items whose `words.txt` exists;
items with a missing words file are skipped (warning + `continue`). -/
def poolPairs (items : List PoolItem) : List (String × List String) :=
  items.filterMap (fun it =>
    it.wordsFile.map (fun ws => (it.label, cleanWords ws (it.excludeFile.getD []))))

/-- The `word_books` / `word_shows` accumulator of `build_pool.py`. -/
def wordBooksOf (items : List PoolItem) : List (String × List String) :=
  tagFold (poolPairs items)

/-- `rows = sorted(word_books.items(), key=lambda x: (-len(x[1]), x[0]))`. -/
def poolRows (items : List PoolItem) : List (String × List String) :=
  sortBy (rowLe Prod.fst (fun p => p.2.length)) (wordBooksOf items)

/-- The rows written to `common_pool.csv`:
`word, "|".join(sorted(labels)), len(labels)`.  The joined field is kept
as the sorted label list. -/
def buildPoolOut (items : List PoolItem) : List (String × List String × Nat) :=
  (poolRows items).map (fun p => (p.1, sortBy strLe p.2, p.2.length))

theorem pairwise_fst_ne_of_nodup {m : List (κ × β)} (h : (keysOf m).Nodup) :
    m.Pairwise (fun a b => a.1 ≠ b.1) := by
  simpa [keysOf, List.Nodup, List.pairwise_map] using h

theorem chain_buildPoolOut (items : List PoolItem) :
    (buildPoolOut items).Chain'
      (fun a b => b.2.2 < a.2.2 ∨ (a.2.2 = b.2.2 ∧ strLt a.1 b.1 = true)) := by
  have h := chain'_sortBy_rows Prod.fst (fun p : String × List String => p.2.length)
    (wordBooksOf items)
    (pairwise_fst_ne_of_nodup (nodup_keysOf_tagFold (poolPairs items)))
  unfold buildPoolOut
  rw [List.chain'_map]
  exact h

theorem buildPoolOut_skips_missing (pre post : List PoolItem)
    (label : String) (excl : Option (List String)) :
    buildPoolOut (pre ++ ⟨label, none, excl⟩ :: post) = buildPoolOut (pre ++ post) := by
  simp [buildPoolOut, poolRows, wordBooksOf, poolPairs, List.filterMap_append]

/-- Two `build_pool` input states coming from the same files: same labels,
same words-file existence with the word *sets* equal (presented in
arbitrary iteration order), same exclude *sets*. -/
def PoolItemEquiv (x y : PoolItem) : Prop :=
  x.label = y.label ∧
  ((x.wordsFile = none ∧ y.wordsFile = none) ∨
    ∃ ws₁ ws₂, x.wordsFile = some ws₁ ∧ y.wordsFile = some ws₂ ∧ ws₁.Perm ws₂) ∧
  (∀ w, w ∈ x.excludeFile.getD [] ↔ w ∈ y.excludeFile.getD [])

theorem cleanWords_perm {ws₁ ws₂ excl₁ excl₂ : List String} (hperm : ws₁.Perm ws₂)
    (hexcl : ∀ w, w ∈ excl₁ ↔ w ∈ excl₂) :
    (cleanWords ws₁ excl₁).Perm (cleanWords ws₂ excl₂) := by
  unfold cleanWords
  have heq : ws₂.filter (fun w => decide (w ∉ excl₁)) =
      ws₂.filter (fun w => decide (w ∉ excl₂)) :=
    List.filter_congr (fun w _ => by simp [hexcl w])
  exact heq ▸ hperm.filter _

theorem poolPairs_equiv {items₁ items₂ : List PoolItem}
    (h : List.Forall₂ PoolItemEquiv items₁ items₂) :
    List.Forall₂ (fun p q => p.1 = q.1 ∧ p.2.Perm q.2)
      (poolPairs items₁) (poolPairs items₂) := by
  induction h with
  | nil => exact List.Forall₂.nil
  | cons hpq hrest ih =>
    rcases hpq with ⟨hlab, hwords, hexcl⟩
    rcases hwords with ⟨hx, hy⟩ | ⟨ws₁, ws₂, hx, hy, hperm⟩
    · simpa [poolPairs, List.filterMap_cons, hx, hy] using ih
    · simp only [poolPairs, List.filterMap_cons, hx, hy, Option.map_some']
      exact List.Forall₂.cons ⟨hlab, cleanWords_perm hperm hexcl⟩ ih

theorem tagsOf_congr {ps₁ ps₂ : List (String × List String)}
    (h : List.Forall₂ (fun p q => p.1 = q.1 ∧ p.2.Perm q.2) ps₁ ps₂) (w : String) :
    tagsOf ps₁ w = tagsOf ps₂ w := by
  induction h with
  | nil => rfl
  | @cons p q ps qs hpq hrest ih =>
    rcases hpq with ⟨h1, h2⟩
    simp only [tagsOf, List.filterMap_cons] at ih ⊢
    by_cases hw : w ∈ p.2
    · rw [if_pos hw, if_pos (h2.mem_iff.mp hw), h1, ih]
    · rw [if_neg hw, if_neg (fun hh => hw (h2.mem_iff.mpr hh)), ih]

theorem poolPairs_nodup {items : List PoolItem}
    (h : ∀ it ∈ items, ∀ ws, it.wordsFile = some ws → ws.Nodup) :
    ∀ p ∈ poolPairs items, p.2.Nodup := by
  intro p hp
  simp only [poolPairs, List.mem_filterMap] at hp
  obtain ⟨it, hit, heq⟩ := hp
  cases hws : it.wordsFile with
  | none => rw [hws] at heq; simp at heq
  | some ws =>
    rw [hws] at heq
    simp only [Option.map_some', Option.some_inj] at heq
    subst heq
    exact (h it hit ws hws).filter _

/-- `build_pool.py` is deterministic: the rows of `common_pool.csv` do
not depend on the iteration order of the word/exclude sets. -/
theorem buildPoolOut_deterministic {items₁ items₂ : List PoolItem}
    (h : List.Forall₂ PoolItemEquiv items₁ items₂)
    (hw₁ : ∀ it ∈ items₁, ∀ ws, it.wordsFile = some ws → ws.Nodup)
    (hw₂ : ∀ it ∈ items₂, ∀ ws, it.wordsFile = some ws → ws.Nodup) :
    buildPoolOut items₁ = buildPoolOut items₂ := by
  have hnd₁ := poolPairs_nodup hw₁
  have hnd₂ := poolPairs_nodup hw₂
  have hperm := perm_tagFold hnd₁ hnd₂ (tagsOf_congr (poolPairs_equiv h))
  have hkey : ∀ a b, a ∈ tagFold (poolPairs items₁) → b ∈ tagFold (poolPairs items₁) →
      (a : String × List String).1 = b.1 → a = b := by
    rintro ⟨w₁, l₁⟩ ⟨w₂, l₂⟩ ha hb heq
    obtain rfl : w₁ = w₂ := heq
    rw [mem_tagFold_iff hnd₁] at ha hb
    rw [Prod.mk.injEq]
    exact ⟨rfl, ha.2.trans hb.2.symm⟩
  have hsort := sortBy_rows_eq_of_perm Prod.fst
    (fun p : String × List String => p.2.length) hperm hkey
  unfold buildPoolOut poolRows wordBooksOf
  rw [hsort]

/-! ## `build_unique.py` (books, lyrics and TV-show variants are the
same code up to naming) -/

/-- A per-item `{word: total_count}` map as loaded from `dataset.csv`. -/
abbrev WordMap := List (String × Nat)

/-- `load_book_words` / `load_artist_words` / `load_show_words` applied to
every configured item in order: `None` stands for a missing
`dataset.csv`, on which the script prints an error and exits non-zero
(`sys.exit(1)`, embedded as `Except.error`). -/
def load_all : List (String × Option WordMap) → Except String (List (String × WordMap))
  | [] => .ok []
  | (n, none) :: _ => .error (n ++ ": dataset.csv not found")
  | (n, some m) :: rest => (load_all rest).map (fun bw => (n, m) :: bw)

/-- `other_words`: the union of the word sets of all items other than
`name` (only membership in it is ever used). -/
def otherWords (bw : List (String × WordMap)) (name : String) : List String :=
  (bw.filter (fun p => decide (p.1 ≠ name))).bind (fun p => keysOf p.2)

/-- `unique = {w: c for w, c in book_words[name].items() if w not in other_words}`. -/
def uniqueFor (bw : List (String × WordMap)) (name : String) (m : WordMap) : WordMap :=
  m.filter (fun p => decide (p.1 ∉ otherWords bw name))

/-- `write_unique`: rows sorted by `(-count, word)`. -/
def uniqueRows (u : WordMap) : WordMap :=
  sortBy (rowLe Prod.fst Prod.snd) u

/-- `set.intersection(*(set(w.keys()) for w in book_words.values()))`,
as the list of first-item words present in every other item. -/
def commonKeys : List (String × WordMap) → List String
  | [] => []
  | p :: rest => (keysOf p.2).filter (fun w => rest.all (fun q => (lookupA w q.2).isSome))

/-- `book_names = sorted(book_words.keys())`. -/
def sortedNames (bw : List (String × WordMap)) : List String :=
  sortBy strLe (keysOf bw)

/-- The per-item counts of a common word, in sorted item-name order
(`[counts[b] for b in book_names]`). -/
def countsFor (bw : List (String × WordMap)) (w : String) : List Nat :=
  (sortedNames bw).map (fun b => (lookupA w ((lookupA b bw).getD [])).getD 0)

/-- The unsorted common rows `(word, total, per-item counts)`. -/
def commonRowsPre (bw : List (String × WordMap)) : List (String × Nat × List Nat) :=
  (commonKeys bw).map (fun w => (w, (countsFor bw w).sum, countsFor bw w))

/-- `write_common`: rows sorted by `(-total, word)`. -/
def commonRows (bw : List (String × WordMap)) : List (String × Nat × List Nat) :=
  sortBy (rowLe Prod.fst (fun r => r.2.1)) (commonRowsPre bw)

/-- `main` of `build_unique.py`: exit non-zero with fewer than two
configured items, exit non-zero on any missing `dataset.csv`, otherwise
write the per-item unique rows and the common rows. -/
def buildUniqueMain (items : List (String × Option WordMap)) :
    Except String ((List (String × WordMap)) × List (String × Nat × List Nat)) :=
  if items.length < 2 then .error "need at least 2 items"
  else (load_all items).map (fun bw =>
    (bw.map (fun p => (p.1, uniqueRows (uniqueFor bw p.1 p.2))), commonRows bw))

theorem mem_otherWords_iff {bw : List (String × WordMap)} {name w : String} :
    w ∈ otherWords bw name ↔ ∃ p ∈ bw, p.1 ≠ name ∧ w ∈ keysOf p.2 := by
  simp only [otherWords, List.mem_bind, List.mem_filter, decide_eq_true_eq]
  constructor
  · rintro ⟨p, ⟨hp, hne⟩, hw⟩
    exact ⟨p, hp, hne, hw⟩
  · rintro ⟨p, hp, hne, hw⟩
    exact ⟨p, ⟨hp, hne⟩, hw⟩

theorem mem_uniqueRows_iff {bw : List (String × WordMap)} {name : String}
    {m : WordMap} {w : String} {c : Nat} :
    (w, c) ∈ uniqueRows (uniqueFor bw name m) ↔
      (w, c) ∈ m ∧ ∀ p ∈ bw, p.1 ≠ name → lookupA w p.2 = none := by
  rw [uniqueRows, mem_sortBy]
  simp only [uniqueFor, List.mem_filter, decide_eq_true_eq]
  rw [mem_otherWords_iff]
  push_neg
  constructor
  · rintro ⟨hm, h⟩
    exact ⟨hm, fun p hp hne => lookupA_eq_none_iff.mpr (h p hp hne)⟩
  · rintro ⟨hm, h⟩
    exact ⟨hm, fun p hp hne => lookupA_eq_none_iff.mp (h p hp hne)⟩

theorem mem_commonKeys_iff {bw : List (String × WordMap)} (hne : bw ≠ []) {w : String} :
    w ∈ commonKeys bw ↔ ∀ p ∈ bw, (lookupA w p.2).isSome = true := by
  cases bw with
  | nil => exact absurd rfl hne
  | cons p rest =>
    simp only [commonKeys, List.mem_filter, List.all_eq_true, List.mem_cons]
    constructor
    · rintro ⟨hw, hall⟩ q hq
      rcases hq with rfl | hq
      · exact lookupA_isSome_iff.mpr hw
      · exact hall q hq
    · intro h
      exact ⟨lookupA_isSome_iff.mp (h p (Or.inl rfl)), fun q hq => h q (Or.inr hq)⟩

theorem mem_commonRows_iff {bw : List (String × WordMap)} (hne : bw ≠ []) {w : String} :
    (∃ t cs, (w, t, cs) ∈ commonRows bw) ↔ ∀ p ∈ bw, (lookupA w p.2).isSome = true := by
  rw [← mem_commonKeys_iff hne]
  simp only [commonRows, mem_sortBy, commonRowsPre, List.mem_map]
  constructor
  · rintro ⟨t, cs, w', hw', heq⟩
    obtain ⟨rfl, -, -⟩ : w' = w ∧ (countsFor bw w').sum = t ∧ countsFor bw w' = cs := by
      exact ⟨congrArg Prod.fst heq, congrArg (fun r => r.2.1) heq, congrArg (fun r => r.2.2) heq⟩
    exact hw'
  · intro hw
    exact ⟨(countsFor bw w).sum, countsFor bw w, w, hw, rfl⟩

theorem commonRows_total {bw : List (String × WordMap)}
    (hnames : (keysOf bw).Nodup) {w : String} {t : Nat} {cs : List Nat}
    (h : (w, t, cs) ∈ commonRows bw) :
    t = (bw.map (fun p => (lookupA w p.2).getD 0)).sum := by
  rw [commonRows, mem_sortBy, commonRowsPre, List.mem_map] at h
  obtain ⟨w', -, heq⟩ := h
  have h1 : w' = w := congrArg Prod.fst heq
  have ht : (countsFor bw w').sum = t := congrArg (fun r => r.2.1) heq
  rw [h1] at ht
  rw [← ht]
  have hperm : (countsFor bw w).Perm
      ((keysOf bw).map (fun b => (lookupA w ((lookupA b bw).getD [])).getD 0)) :=
    (perm_sortBy strLe (keysOf bw)).map _
  rw [hperm.sum_eq]
  rw [keysOf, List.map_map]
  refine congrArg List.sum (List.map_congr_left ?_)
  intro p hp
  simp only [Function.comp_apply]
  rw [lookupA_of_mem_nodup hnames hp]
  rfl

theorem nodup_commonKeys {bw : List (String × WordMap)}
    (h : ∀ p ∈ bw, (keysOf p.2).Nodup) : (commonKeys bw).Nodup := by
  cases bw with
  | nil => simp [commonKeys]
  | cons p rest => exact (h p (List.mem_cons_self _ _)).filter _

theorem chain_uniqueRows {u : WordMap} (h : (keysOf u).Nodup) :
    (uniqueRows u).Chain'
      (fun a b => b.2 < a.2 ∨ (a.2 = b.2 ∧ strLt a.1 b.1 = true)) :=
  chain'_sortBy_rows Prod.fst Prod.snd u (pairwise_fst_ne_of_nodup h)

theorem chain_commonRows {bw : List (String × WordMap)}
    (h : ∀ p ∈ bw, (keysOf p.2).Nodup) :
    (commonRows bw).Chain'
      (fun a b => b.2.1 < a.2.1 ∨ (a.2.1 = b.2.1 ∧ strLt a.1 b.1 = true)) := by
  refine chain'_sortBy_rows Prod.fst (fun r => r.2.1) (commonRowsPre bw) ?_
  unfold commonRowsPre
  rw [List.pairwise_map]
  exact nodup_commonKeys h

theorem load_all_error {items : List (String × Option WordMap)} {n : String}
    (h : (n, none) ∈ items) : ∃ e, load_all items = Except.error e := by
  induction items with
  | nil => simp at h
  | cons p rest ih =>
    obtain ⟨n', om⟩ := p
    cases om with
    | none => exact ⟨n' ++ ": dataset.csv not found", rfl⟩
    | some m =>
      rcases List.mem_cons.mp h with heq | h'
      · exact absurd (congrArg Prod.snd heq) (by simp)
      · obtain ⟨e, he⟩ := ih h'
        refine ⟨e, ?_⟩
        unfold load_all
        rw [he]
        rfl

/-- A missing `dataset.csv` is fatal for `build_unique.py`: the script
exits non-zero (it does not skip the item). -/
theorem buildUniqueMain_missing_fatal {items : List (String × Option WordMap)}
    {n : String} (h : (n, none) ∈ items) :
    (buildUniqueMain items).isOk = false := by
  unfold buildUniqueMain
  split
  · rfl
  · obtain ⟨e, he⟩ := load_all_error h
    rw [he]
    rfl

theorem buildUniqueMain_too_few {items : List (String × Option WordMap)}
    (h : items.length < 2) :
    buildUniqueMain items = Except.error "need at least 2 items" := by
  simp [buildUniqueMain, h]

/-! ## `build_common_words.py` (lyrics) -/

/-- The artists whose `words.txt` was found and non-empty
(`if words: artist_words[artist] = words`); the glob is sorted so the
item order is deterministic, each word list stands for a `set`. -/
def presentArtists (files : List (String × List String)) : List (String × List String) :=
  files.filter (fun p => decide (p.2 ≠ []))

/-- The `word_artists` accumulator. -/
def wordArtists (files : List (String × List String)) : List (String × List String) :=
  tagFold (presentArtists files)

/-- `all_words = sorted(word_artists.items(), key=lambda x: (-len(x[1]), x[0]))`. -/
def allWordsRows (files : List (String × List String)) : List (String × List String) :=
  sortBy (rowLe Prod.fst (fun p => p.2.length)) (wordArtists files)

/-- `min_artists = max(1, int(total * threshold_pct / 100))` — Python's
`int()` on this non-negative value is floor division. -/
def minArtists (total pct : Nat) : Nat := max 1 (total * pct / 100)

/-- One threshold file:
`sorted(w for w, a in all_words if len(a) >= min_artists)`. -/
def thresholdWords (files : List (String × List String)) (pct : Nat) : List String :=
  sortBy strLe
    (((allWordsRows files).filter
      (fun p => decide (minArtists (presentArtists files).length pct ≤ p.2.length))).map
      Prod.fst)

/-- The rows of the full-stats `common_words.csv`:
`word, artist_count, pct, "; ".join(sorted(artists))`.  The `pct` column
is `round(count / total * 100, 1)`, a pure function of
`(artist_count, total)`; the row carries that argument pair. -/
def commonWordsCsvRows (files : List (String × List String)) :
    List (String × Nat × (Nat × Nat) × List String) :=
  (allWordsRows files).map
    (fun p => (p.1, p.2.length, (p.2.length, (presentArtists files).length),
      sortBy strLe p.2))

/-- `main` of `build_common_words.py`: with no artist data it prints a
message and returns normally (exit code 0, `none` here — no files
written); otherwise it writes the stats CSV and the four threshold
files.  There is no minimum-item check. -/
def buildCommonWordsMain (files : List (String × List String)) :
    Option ((List (String × Nat × (Nat × Nat) × List String)) × List (Nat × List String)) :=
  if presentArtists files = [] then none
  else some (commonWordsCsvRows files,
    [100, 90, 75, 50].map (fun pct => (pct, thresholdWords files pct)))

theorem tagsOf_length (items : List (String × List String)) (w : String) :
    (tagsOf items w).length = (items.filter (fun p => decide (w ∈ p.2))).length := by
  induction items with
  | nil => rfl
  | cons p rest ih =>
    simp only [tagsOf, List.filterMap_cons, List.filter_cons] at ih ⊢
    by_cases hw : w ∈ p.2
    · simp [hw, ih]
    · simp [hw, ih]

theorem tagsOf_ne_nil_iff {items : List (String × List String)} {w : String} :
    tagsOf items w ≠ [] ↔ ∃ p ∈ items, w ∈ p.2 := by
  rw [← List.length_pos_iff_ne_nil, tagsOf_length, List.length_pos_iff_ne_nil]
  constructor
  · intro h
    obtain ⟨p, hp⟩ := List.exists_mem_of_ne_nil _ h
    rw [List.mem_filter] at hp
    exact ⟨p, hp.1, by simpa using hp.2⟩
  · rintro ⟨p, hp, hw⟩
    exact List.ne_nil_of_mem (List.mem_filter.mpr ⟨hp, by simpa using hw⟩)

/-- Membership in a threshold file is exactly: the word is carried by at
least `max(1, floor(total * pct / 100))` of the present artists. -/
theorem mem_thresholdWords_iff {files : List (String × List String)} {pct : Nat}
    (hnd : ∀ p ∈ files, p.2.Nodup) {w : String} :
    w ∈ thresholdWords files pct ↔
      minArtists (presentArtists files).length pct ≤
        ((presentArtists files).filter (fun p => decide (w ∈ p.2))).length := by
  have hnd' : ∀ p ∈ presentArtists files, p.2.Nodup :=
    fun p hp => hnd p (List.mem_of_mem_filter hp)
  unfold thresholdWords
  rw [mem_sortBy]
  simp only [List.mem_map, List.mem_filter, decide_eq_true_eq]
  constructor
  · rintro ⟨p, ⟨hp, hmin⟩, rfl⟩
    rw [allWordsRows, mem_sortBy, wordArtists] at hp
    have hp' := (mem_tagFold_iff hnd').mp (by exact hp)
    rw [hp'.2, tagsOf_length] at hmin
    exact hmin
  · intro hmin
    have h1 : 0 < ((presentArtists files).filter (fun p => decide (w ∈ p.2))).length :=
      lt_of_lt_of_le (lt_of_lt_of_le Nat.zero_lt_one (le_max_left _ _)) hmin
    have hne : tagsOf (presentArtists files) w ≠ [] := by
      rw [← List.length_pos_iff_ne_nil, tagsOf_length]
      exact h1
    refine ⟨(w, tagsOf (presentArtists files) w), ⟨?_, ?_⟩, rfl⟩
    · rw [allWordsRows, mem_sortBy, wordArtists]
      exact (mem_tagFold_iff hnd').mpr ⟨hne, rfl⟩
    · rw [tagsOf_length]
      exact hmin

/-! ## `parse_show.py` / `parse_book.py` — per-item aggregation

`process_show` folds episode word counters into
`{word: {"total": n, "episodes": {key: count}}}`;
`process_book` does the same per chapter but accumulates
(`chapters.get(ch, 0) + count`) instead of assigning.  A map entry is
`(word, total, breakdown)`. -/

/-- `d[k] = c` on a breakdown dict (`words[word]["episodes"][(s, e)] = count`). -/
def updAssign [DecidableEq κ] (br : List (κ × Nat)) (k : κ) (c : Nat) : List (κ × Nat) :=
  match br with
  | [] => [(k, c)]
  | p :: rest => if p.1 = k then (p.1, c) :: rest else p :: updAssign rest k c

/-- `d[k] = d.get(k, 0) + c` on a breakdown dict
(`words[word]["chapters"][ch] = ...get(ch, 0) + count`). -/
def updAdd [DecidableEq κ] (br : List (κ × Nat)) (k : κ) (c : Nat) : List (κ × Nat) :=
  match br with
  | [] => [(k, c)]
  | p :: rest => if p.1 = k then (p.1, p.2 + c) :: rest else p :: updAdd rest k c

theorem updAssign_fresh [DecidableEq κ] :
    ∀ {br : List (κ × Nat)} {k : κ} {c : Nat}, k ∉ keysOf br →
      updAssign br k c = br ++ [(k, c)]
  | [], _, _, _ => rfl
  | p :: rest, k, c, h => by
    have hne : p.1 ≠ k := fun hh => h (by simp [keysOf, hh])
    simp only [updAssign, if_neg hne, List.cons_append]
    rw [updAssign_fresh (fun hh => h (by simp [keysOf]; exact Or.inr (by simpa [keysOf] using hh)))]

theorem updAdd_fresh [DecidableEq κ] :
    ∀ {br : List (κ × Nat)} {k : κ} {c : Nat}, k ∉ keysOf br →
      updAdd br k c = br ++ [(k, c)]
  | [], _, _, _ => rfl
  | p :: rest, k, c, h => by
    have hne : p.1 ≠ k := fun hh => h (by simp [keysOf, hh])
    simp only [updAdd, if_neg hne, List.cons_append]
    rw [updAdd_fresh (fun hh => h (by simp [keysOf]; exact Or.inr (by simpa [keysOf] using hh)))]

theorem keysOf_cons (p : κ × β) (l : List (κ × β)) :
    keysOf (p :: l) = p.1 :: keysOf l := rfl

theorem updAssign_keys_sub [DecidableEq κ] :
    ∀ (br : List (κ × Nat)) (k : κ) (c : Nat), keysOf (updAssign br k c) ⊆ k :: keysOf br
  | [], k, c => by simp [updAssign, keysOf]
  | p :: rest, k, c => by
    simp only [updAssign]
    split
    next h =>
      rw [keysOf_cons, keysOf_cons]
      intro a ha
      rcases List.mem_cons.mp ha with rfl | ha
      · exact List.mem_cons_of_mem _ (List.mem_cons_self _ _)
      · exact List.mem_cons_of_mem _ (List.mem_cons_of_mem _ ha)
    next h =>
      rw [keysOf_cons, keysOf_cons]
      intro a ha
      rcases List.mem_cons.mp ha with rfl | ha
      · exact List.mem_cons_of_mem _ (List.mem_cons_self _ _)
      · rcases List.mem_cons.mp (updAssign_keys_sub rest k c ha) with rfl | h'
        · exact List.mem_cons_self _ _
        · exact List.mem_cons_of_mem _ (List.mem_cons_of_mem _ h')

theorem updAdd_keys_sub [DecidableEq κ] :
    ∀ (br : List (κ × Nat)) (k : κ) (c : Nat), keysOf (updAdd br k c) ⊆ k :: keysOf br
  | [], k, c => by simp [updAdd, keysOf]
  | p :: rest, k, c => by
    simp only [updAdd]
    split
    next h =>
      rw [keysOf_cons, keysOf_cons]
      intro a ha
      rcases List.mem_cons.mp ha with rfl | ha
      · exact List.mem_cons_of_mem _ (List.mem_cons_self _ _)
      · exact List.mem_cons_of_mem _ (List.mem_cons_of_mem _ ha)
    next h =>
      rw [keysOf_cons, keysOf_cons]
      intro a ha
      rcases List.mem_cons.mp ha with rfl | ha
      · exact List.mem_cons_of_mem _ (List.mem_cons_self _ _)
      · rcases List.mem_cons.mp (updAdd_keys_sub rest k c ha) with rfl | h'
        · exact List.mem_cons_self _ _
        · exact List.mem_cons_of_mem _ (List.mem_cons_of_mem _ h')

/-- One `words[word]` update inside the per-unit loop: bump the total by
`c` and update the breakdown at unit key `k`, creating the entry if the
word is new (`defaultdict`). -/
def bumpWord [DecidableEq κ] (upd : List (κ × Nat) → κ → Nat → List (κ × Nat))
    (m : List (String × Nat × List (κ × Nat))) (k : κ) (w : String) (c : Nat) :
    List (String × Nat × List (κ × Nat)) :=
  match m with
  | [] => [(w, c, upd [] k c)]
  | e :: rest =>
    if e.1 = w then (e.1, e.2.1 + c, upd e.2.2 k c) :: rest
    else e :: bumpWord upd rest k w c

/-- The whole double loop of `process_show` / `process_book` over a list
of `(unit key, extract_words counter)` pairs. -/
def processUnits [DecidableEq κ] (upd : List (κ × Nat) → κ → Nat → List (κ × Nat))
    (units : List (κ × List (String × Nat))) : List (String × Nat × List (κ × Nat)) :=
  units.foldl (fun m u => u.2.foldl (fun m wc => bumpWord upd m u.1 wc.1 wc.2) m) []

/-- `process_show` (tv_shows and TV_shows parse stages): breakdown entries
are assigned (`episodes[(s, e)] = count`). -/
def process_show (units : List ((Nat × Nat) × List (String × Nat))) :
    List (String × Nat × List ((Nat × Nat) × Nat)) :=
  processUnits updAssign units

/-- `process_book`: breakdown entries accumulate
(`chapters.get(ch_num, 0) + count`). -/
def process_book (chapters : List (Nat × List (String × Nat))) :
    List (String × Nat × List (Nat × Nat)) :=
  processUnits updAdd chapters

theorem bumpWord_origin [DecidableEq κ] (upd : List (κ × Nat) → κ → Nat → List (κ × Nat)) :
    ∀ (m : List (String × Nat × List (κ × Nat))) (k : κ) (w : String) (c : Nat)
      (e : String × Nat × List (κ × Nat)),
      e ∈ bumpWord upd m k w c → e.1 = w ∨ e ∈ m
  | [], k, w, c, e, h => by
    simp only [bumpWord, List.mem_singleton] at h
    subst h
    exact Or.inl rfl
  | x :: rest, k, w, c, e, h => by
    simp only [bumpWord] at h
    split at h
    next hx =>
      rcases List.mem_cons.mp h with rfl | h'
      · exact Or.inl hx
      · exact Or.inr (List.mem_cons_of_mem _ h')
    next hx =>
      rcases List.mem_cons.mp h with rfl | h'
      · exact Or.inr (List.mem_cons_self _ _)
      · rcases bumpWord_origin upd rest k w c e h' with h'' | h''
        · exact Or.inl h''
        · exact Or.inr (List.mem_cons_of_mem _ h'')

theorem inv_bumpWord [DecidableEq κ] {upd : List (κ × Nat) → κ → Nat → List (κ × Nat)}
    (hupd : ∀ (br : List (κ × Nat)) (k : κ) (c : Nat), k ∉ keysOf br →
      upd br k c = br ++ [(k, c)]) :
    ∀ (m : List (String × Nat × List (κ × Nat))) (k : κ) (w : String) (c : Nat),
      (∀ e ∈ m, e.2.1 = (e.2.2.map Prod.snd).sum) →
      (∀ e ∈ m, e.1 = w → k ∉ keysOf e.2.2) →
      ∀ e ∈ bumpWord upd m k w c, e.2.1 = (e.2.2.map Prod.snd).sum
  | [], k, w, c, _, _, e, he => by
    simp only [bumpWord, List.mem_singleton] at he
    subst he
    rw [hupd [] k c (by simp [keysOf])]
    simp
  | x :: rest, k, w, c, hm, hk, e, he => by
    simp only [bumpWord] at he
    split at he
    next hx =>
      rcases List.mem_cons.mp he with rfl | he'
      · have hfresh : k ∉ keysOf x.2.2 := hk x (List.mem_cons_self _ _) hx
        show x.2.1 + c = (((upd x.2.2 k c).map Prod.snd).sum)
        rw [hupd _ _ _ hfresh]
        simp [hm x (List.mem_cons_self _ _)]
      · exact hm e (List.mem_cons_of_mem _ he')
    next hx =>
      rcases List.mem_cons.mp he with rfl | he'
      · exact hm e (List.mem_cons_self _ _)
      · exact inv_bumpWord hupd rest k w c
          (fun e' he'' => hm e' (List.mem_cons_of_mem _ he''))
          (fun e' he'' hw => hk e' (List.mem_cons_of_mem _ he'') hw) e he'

theorem bumpWord_breakdown_keys [DecidableEq κ]
    {upd : List (κ × Nat) → κ → Nat → List (κ × Nat)}
    (hkeys : ∀ (br : List (κ × Nat)) (k : κ) (c : Nat), keysOf (upd br k c) ⊆ k :: keysOf br) :
    ∀ (m : List (String × Nat × List (κ × Nat))) (k : κ) (w : String) (c : Nat),
      ∀ e ∈ bumpWord upd m k w c, ∀ k' ∈ keysOf e.2.2,
        k' = k ∨ ∃ e' ∈ m, k' ∈ keysOf e'.2.2
  | [], k, w, c, e, he, k', hk' => by
    simp only [bumpWord, List.mem_singleton] at he
    subst he
    rcases List.mem_cons.mp (hkeys [] k c hk') with rfl | h
    · exact Or.inl rfl
    · simp [keysOf] at h
  | x :: rest, k, w, c, e, he, k', hk' => by
    simp only [bumpWord] at he
    split at he
    next hx =>
      rcases List.mem_cons.mp he with rfl | he'
      · rcases List.mem_cons.mp (hkeys x.2.2 k c hk') with rfl | h
        · exact Or.inl rfl
        · exact Or.inr ⟨x, List.mem_cons_self _ _, h⟩
      · exact Or.inr ⟨e, List.mem_cons_of_mem _ he', hk'⟩
    next hx =>
      rcases List.mem_cons.mp he with rfl | he'
      · exact Or.inr ⟨e, List.mem_cons_self _ _, hk'⟩
      · rcases bumpWord_breakdown_keys hkeys rest k w c e he' k' hk' with h | ⟨e', he'', h⟩
        · exact Or.inl h
        · exact Or.inr ⟨e', List.mem_cons_of_mem _ he'', h⟩

theorem inv_foldl_counter [DecidableEq κ] {upd : List (κ × Nat) → κ → Nat → List (κ × Nat)}
    (hupd : ∀ (br : List (κ × Nat)) (k : κ) (c : Nat), k ∉ keysOf br →
      upd br k c = br ++ [(k, c)])
    (hkeys : ∀ (br : List (κ × Nat)) (k : κ) (c : Nat), keysOf (upd br k c) ⊆ k :: keysOf br) :
    ∀ (cnt : List (String × Nat)) (m : List (String × Nat × List (κ × Nat))) (k : κ),
      (cnt.map Prod.fst).Nodup →
      (∀ e ∈ m, e.2.1 = (e.2.2.map Prod.snd).sum) →
      (∀ e ∈ m, e.1 ∈ cnt.map Prod.fst → k ∉ keysOf e.2.2) →
      (∀ e ∈ cnt.foldl (fun m wc => bumpWord upd m k wc.1 wc.2) m,
        e.2.1 = (e.2.2.map Prod.snd).sum) ∧
      (∀ e ∈ cnt.foldl (fun m wc => bumpWord upd m k wc.1 wc.2) m,
        ∀ k' ∈ keysOf e.2.2, k' = k ∨ ∃ e' ∈ m, k' ∈ keysOf e'.2.2)
  | [], m, k, _, hm, _ => ⟨hm, fun e he k' hk' => Or.inr ⟨e, he, hk'⟩⟩
  | wc :: rest, m, k, hnd, hm, hk => by
    simp only [List.foldl_cons]
    have hnd' : (wc.1 ∉ rest.map Prod.fst) ∧ (rest.map Prod.fst).Nodup := by
      rw [List.map_cons] at hnd
      exact List.nodup_cons.mp hnd
    have hm' : ∀ e ∈ bumpWord upd m k wc.1 wc.2, e.2.1 = (e.2.2.map Prod.snd).sum :=
      inv_bumpWord hupd m k wc.1 wc.2 hm
        (fun e he hew => hk e he (by rw [List.map_cons]; exact hew ▸ List.mem_cons_self _ _))
    have hk' : ∀ e ∈ bumpWord upd m k wc.1 wc.2, e.1 ∈ rest.map Prod.fst →
        k ∉ keysOf e.2.2 := by
      intro e he hew
      rcases bumpWord_origin upd m k wc.1 wc.2 e he with heq | hem
      · exact absurd (heq ▸ hew) hnd'.1
      · exact hk e hem (by rw [List.map_cons]; exact List.mem_cons_of_mem _ hew)
    obtain ⟨ih1, ih2⟩ := inv_foldl_counter hupd hkeys rest
      (bumpWord upd m k wc.1 wc.2) k hnd'.2 hm' hk'
    refine ⟨ih1, ?_⟩
    intro e he k' hk''
    rcases ih2 e he k' hk'' with h | ⟨e', he', hk'''⟩
    · exact Or.inl h
    · rcases bumpWord_breakdown_keys hkeys m k wc.1 wc.2 e' he' k' hk''' with h | ⟨e'', he'', h⟩
      · exact Or.inl h
      · exact Or.inr ⟨e'', he'', h⟩

theorem inv_processUnits [DecidableEq κ] {upd : List (κ × Nat) → κ → Nat → List (κ × Nat)}
    (hupd : ∀ (br : List (κ × Nat)) (k : κ) (c : Nat), k ∉ keysOf br →
      upd br k c = br ++ [(k, c)])
    (hkeys : ∀ (br : List (κ × Nat)) (k : κ) (c : Nat), keysOf (upd br k c) ⊆ k :: keysOf br) :
    ∀ (units : List (κ × List (String × Nat))) (m : List (String × Nat × List (κ × Nat))),
      (units.map Prod.fst).Nodup →
      (∀ u ∈ units, (u.2.map Prod.fst).Nodup) →
      (∀ e ∈ m, e.2.1 = (e.2.2.map Prod.snd).sum) →
      (∀ e ∈ m, ∀ k' ∈ keysOf e.2.2, k' ∉ units.map Prod.fst) →
      ∀ e ∈ units.foldl
        (fun m u => u.2.foldl (fun m wc => bumpWord upd m u.1 wc.1 wc.2) m) m,
        e.2.1 = (e.2.2.map Prod.snd).sum
  | [], m, _, _, hm, _ => hm
  | u :: rest, m, hnd, hcnt, hm, hdisj => by
    simp only [List.foldl_cons]
    have hnd' : (u.1 ∉ rest.map Prod.fst) ∧ (rest.map Prod.fst).Nodup := by
      rw [List.map_cons] at hnd
      exact List.nodup_cons.mp hnd
    obtain ⟨h1, h2⟩ := inv_foldl_counter hupd hkeys u.2 m u.1
      (hcnt u (List.mem_cons_self _ _)) hm
      (fun e he _ hku => hdisj e he u.1 hku
        (by rw [List.map_cons]; exact List.mem_cons_self _ _))
    refine inv_processUnits hupd hkeys rest _ hnd'.2
      (fun u' hu' => hcnt u' (List.mem_cons_of_mem _ hu')) h1 ?_
    intro e he k' hk'
    rcases h2 e he k' hk' with rfl | ⟨e', he', hkk⟩
    · exact hnd'.1
    · intro hmem
      exact hdisj e' he' k' hkk (by rw [List.map_cons]; exact List.mem_cons_of_mem _ hmem)

theorem keysOf_bumpWord [DecidableEq κ] (upd : List (κ × Nat) → κ → Nat → List (κ × Nat)) :
    ∀ (m : List (String × Nat × List (κ × Nat))) (k : κ) (w : String) (c : Nat),
      keysOf (bumpWord upd m k w c) =
        if w ∈ keysOf m then keysOf m else keysOf m ++ [w]
  | [], k, w, c => by simp [bumpWord, keysOf]
  | x :: rest, k, w, c => by
    by_cases hx : x.1 = w
    · simp only [bumpWord, if_pos hx, keysOf_cons]
      rw [if_pos (hx ▸ List.mem_cons_self x.1 (keysOf rest))]
    · simp only [bumpWord, if_neg hx, keysOf_cons, keysOf_bumpWord upd rest k w c]
      have hne : ¬ w = x.1 := fun h => hx h.symm
      by_cases hw : w ∈ keysOf rest
      · rw [if_pos hw, if_pos (List.mem_cons_of_mem _ hw)]
      · rw [if_neg hw, if_neg (by simp [List.mem_cons, hne, hw]), List.cons_append]

theorem nodup_keysOf_bumpWord [DecidableEq κ]
    (upd : List (κ × Nat) → κ → Nat → List (κ × Nat))
    {m : List (String × Nat × List (κ × Nat))} (k : κ) (w : String) (c : Nat)
    (h : (keysOf m).Nodup) : (keysOf (bumpWord upd m k w c)).Nodup := by
  rw [keysOf_bumpWord]
  split
  · exact h
  next hw => simpa [List.nodup_append, hw] using h

theorem nodup_keysOf_foldl_counter [DecidableEq κ]
    (upd : List (κ × Nat) → κ → Nat → List (κ × Nat)) :
    ∀ (cnt : List (String × Nat)) (m : List (String × Nat × List (κ × Nat))) (k : κ),
      (keysOf m).Nodup →
      (keysOf (cnt.foldl (fun m wc => bumpWord upd m k wc.1 wc.2) m)).Nodup
  | [], _, _, h => h
  | wc :: rest, m, k, h =>
    nodup_keysOf_foldl_counter upd rest _ k (nodup_keysOf_bumpWord upd k wc.1 wc.2 h)

theorem nodup_keysOf_processUnits_aux [DecidableEq κ]
    (upd : List (κ × Nat) → κ → Nat → List (κ × Nat)) :
    ∀ (units : List (κ × List (String × Nat))) (m : List (String × Nat × List (κ × Nat))),
      (keysOf m).Nodup →
      (keysOf (units.foldl
        (fun m u => u.2.foldl (fun m wc => bumpWord upd m u.1 wc.1 wc.2) m) m)).Nodup
  | [], _, h => h
  | u :: rest, m, h =>
    nodup_keysOf_processUnits_aux upd rest _ (nodup_keysOf_foldl_counter upd u.2 m u.1 h)

theorem nodup_keysOf_processUnits [DecidableEq κ]
    (upd : List (κ × Nat) → κ → Nat → List (κ × Nat))
    (units : List (κ × List (String × Nat))) :
    (keysOf (processUnits upd units)).Nodup :=
  nodup_keysOf_processUnits_aux upd units [] (by simp [keysOf])

theorem forall₂_presentArtists {files₁ files₂ : List (String × List String)}
    (h : List.Forall₂ (fun p q => p.1 = q.1 ∧ p.2.Perm q.2) files₁ files₂) :
    List.Forall₂ (fun p q => p.1 = q.1 ∧ p.2.Perm q.2)
      (presentArtists files₁) (presentArtists files₂) := by
  induction h with
  | nil => exact List.Forall₂.nil
  | @cons p q ps qs hpq hrest ih =>
    by_cases hp : p.2 = []
    · have hq : q.2 = [] := ((hp ▸ hpq.2 : ([] : List String).Perm q.2)).symm.eq_nil
      simpa [presentArtists, List.filter_cons, hp, hq] using ih
    · have hq : q.2 ≠ [] := fun hh => hp ((hh ▸ hpq.2 : p.2.Perm []).eq_nil)
      simp only [presentArtists, List.filter_cons, decide_eq_true_eq]
      rw [if_pos hp, if_pos hq]
      exact List.Forall₂.cons hpq ih

theorem tagFold_key_determined {items : List (String × List String)}
    (hnd : ∀ p ∈ items, p.2.Nodup) :
    ∀ a b, a ∈ tagFold items → b ∈ tagFold items →
      (a : String × List String).1 = b.1 → a = b := by
  rintro ⟨w₁, l₁⟩ ⟨w₂, l₂⟩ ha hb heq
  obtain rfl : w₁ = w₂ := heq
  rw [mem_tagFold_iff hnd] at ha hb
  rw [Prod.mk.injEq]
  exact ⟨rfl, ha.2.trans hb.2.symm⟩

theorem allWordsRows_congr {files₁ files₂ : List (String × List String)}
    (h : List.Forall₂ (fun p q => p.1 = q.1 ∧ p.2.Perm q.2) files₁ files₂)
    (h₁ : ∀ p ∈ files₁, p.2.Nodup) (h₂ : ∀ p ∈ files₂, p.2.Nodup) :
    allWordsRows files₁ = allWordsRows files₂ := by
  have hnd₁ : ∀ p ∈ presentArtists files₁, p.2.Nodup :=
    fun p hp => h₁ p (List.mem_of_mem_filter hp)
  have hnd₂ : ∀ p ∈ presentArtists files₂, p.2.Nodup :=
    fun p hp => h₂ p (List.mem_of_mem_filter hp)
  have hperm := perm_tagFold hnd₁ hnd₂ (tagsOf_congr (forall₂_presentArtists h))
  exact sortBy_rows_eq_of_perm Prod.fst (fun p => p.2.length) hperm
    (tagFold_key_determined hnd₁)

/-- `build_common_words.py` is deterministic: every output file is a
function of the artist word sets alone, not of `set` iteration order. -/
theorem buildCommonWordsMain_deterministic {files₁ files₂ : List (String × List String)}
    (h : List.Forall₂ (fun p q => p.1 = q.1 ∧ p.2.Perm q.2) files₁ files₂)
    (h₁ : ∀ p ∈ files₁, p.2.Nodup) (h₂ : ∀ p ∈ files₂, p.2.Nodup) :
    buildCommonWordsMain files₁ = buildCommonWordsMain files₂ := by
  have hrows := allWordsRows_congr h h₁ h₂
  have hlen : (presentArtists files₁).length = (presentArtists files₂).length :=
    (forall₂_presentArtists h).length_eq
  have hnil : presentArtists files₁ = [] ↔ presentArtists files₂ = [] := by
    rw [← List.length_eq_zero, ← List.length_eq_zero, hlen]
  have hcsv : commonWordsCsvRows files₁ = commonWordsCsvRows files₂ := by
    unfold commonWordsCsvRows
    rw [hrows, hlen]
  have hth : ∀ pct, thresholdWords files₁ pct = thresholdWords files₂ pct := by
    intro pct
    unfold thresholdWords
    rw [hrows, hlen]
  unfold buildCommonWordsMain
  by_cases hA : presentArtists files₁ = []
  · rw [if_pos hA, if_pos (hnil.mp hA)]
  · rw [if_neg hA, if_neg (fun hB => hA (hnil.mpr hB)), hcsv]
    have : ([100, 90, 75, 50].map (fun pct => (pct, thresholdWords files₁ pct))) =
        ([100, 90, 75, 50].map (fun pct => (pct, thresholdWords files₂ pct))) :=
      List.map_congr_left (fun pct _ => by rw [hth])
    rw [this]

/-! ## `word_processor.py` (books): chunked `extract_words`

Text is a list of characters (Python `str`); the external spaCy pipeline
`_process_doc(nlp(...))` is an abstract counter `count` into an additive
commutative monoid (a `Counter` of kept lemmas); the chunk-insensitivity
proviso of the spec is the hypothesis that `count` is additive across a
newline (`count (a + "\n" + b) = count a + count b`). -/

/-- `CHUNK_SIZE = 500_000`. -/
def CHUNK_SIZE : Nat := 500000

/-- Python `text.split("\n")`. -/
def splitOnNewline : List Char → List (List Char)
  | [] => [[]]
  | c :: rest =>
    if c = '\n' then [] :: splitOnNewline rest
    else
      match splitOnNewline rest with
      | [] => [[c]]
      | p :: ps => (c :: p) :: ps

/-- `"\n".join(...)`. -/
def joinNL : List (List Char) → List Char
  | [] => []
  | [p] => p
  | p :: ps => p ++ '\n' :: joinNL ps

theorem splitOnNewline_ne_nil : ∀ l : List Char, splitOnNewline l ≠ []
  | [] => by simp [splitOnNewline]
  | c :: rest => by
    simp only [splitOnNewline]
    split
    · simp
    · split
      · simp
      · simp

theorem joinNL_cons_of_ne_nil {p : List Char} {ps : List (List Char)} (h : ps ≠ []) :
    joinNL (p :: ps) = p ++ '\n' :: joinNL ps := by
  cases ps with
  | nil => exact absurd rfl h
  | cons q qs => rfl

theorem joinNL_splitOnNewline : ∀ l : List Char, joinNL (splitOnNewline l) = l
  | [] => rfl
  | c :: rest => by
    simp only [splitOnNewline]
    split
    next hc =>
      subst hc
      rw [joinNL_cons_of_ne_nil (splitOnNewline_ne_nil rest)]
      rw [joinNL_splitOnNewline rest]
      rfl
    next hc =>
      cases hs : splitOnNewline rest with
      | nil => exact absurd hs (splitOnNewline_ne_nil rest)
      | cons p ps =>
        have hj : joinNL (p :: ps) = rest := by
          rw [← hs, joinNL_splitOnNewline rest]
        cases ps with
        | nil => simpa [joinNL] using congrArg (c :: ·) hj
        | cons q qs =>
          rw [joinNL_cons_of_ne_nil (by simp)] at hj ⊢
          rw [List.cons_append, hj]

/-- The chunking loop of `extract_words`: accumulate paragraphs into
`chunk` (with `chunk_len` counting `len(para) + 1` per paragraph), flush
the chunk when adding the next paragraph would push past the limit and
the chunk is non-empty, and flush the remainder at the end.  Returns the
list of flushed chunks, each a list of paragraphs. -/
def chunkLoop (lim : Nat) : List (List Char) → List (List Char) → Nat → List (List (List Char))
  | [], chunk, _ => if chunk = [] then [] else [chunk]
  | para :: rest, chunk, clen =>
    if lim < clen + para.length + 1 ∧ chunk ≠ [] then
      chunk :: chunkLoop lim rest [para] (para.length + 1)
    else
      chunkLoop lim rest (chunk ++ [para]) (clen + para.length + 1)

/-- The chunks `extract_words` processes for a given paragraph list. -/
def chunksOf (lim : Nat) (paras : List (List Char)) : List (List (List Char)) :=
  chunkLoop lim paras [] 0

/-- `extract_words`: short texts are processed whole; texts beyond
`CHUNK_SIZE` are split on paragraph boundaries and the per-chunk counts
are summed. -/
def extract_words {M : Type} [AddCommMonoid M] (count : List Char → M)
    (text : List Char) : M :=
  if text.length ≤ CHUNK_SIZE then count text
  else ((chunksOf CHUNK_SIZE (splitOnNewline text)).map (fun ch => count (joinNL ch))).sum

theorem chunkLoop_join (lim : Nat) :
    ∀ (rest : List (List Char)) (chunk : List (List Char)) (clen : Nat),
      (chunkLoop lim rest chunk clen).join = chunk ++ rest
  | [], chunk, clen => by
    simp only [chunkLoop]
    split
    next h => simp [h]
    next h => simp
  | para :: rest, chunk, clen => by
    simp only [chunkLoop]
    split
    · simp [chunkLoop_join lim rest [para] (para.length + 1)]
    · simp [chunkLoop_join lim rest (chunk ++ [para]) (clen + para.length + 1)]

/-- Weight of a chunk: `chunk_len` as the loop maintains it. -/
def chunkWeight (chunk : List (List Char)) : Nat :=
  (chunk.map (fun p => p.length + 1)).sum

theorem joinNL_length : ∀ {chunk : List (List Char)}, chunk ≠ [] →
    (joinNL chunk).length + 1 = chunkWeight chunk
  | [], h => absurd rfl h
  | [p], _ => by simp [joinNL, chunkWeight]
  | p :: q :: qs, _ => by
    rw [joinNL_cons_of_ne_nil (by simp)]
    have := @joinNL_length (q :: qs) (by simp)
    simp only [chunkWeight, List.map_cons, List.sum_cons] at this ⊢
    simp only [List.length_append, List.length_cons]
    omega

theorem chunkLoop_weight (lim : Nat) :
    ∀ (rest : List (List Char)) (chunk : List (List Char)) (clen : Nat),
      (∀ p ∈ rest, p.length + 1 ≤ lim) →
      clen = chunkWeight chunk →
      (chunk ≠ [] → clen ≤ lim) →
      ∀ ch ∈ chunkLoop lim rest chunk clen, ch ≠ [] ∧ chunkWeight ch ≤ lim
  | [], chunk, clen, _, hcl, hle => by
    simp only [chunkLoop]
    split
    · simp
    next h =>
      intro ch hch
      rw [List.mem_singleton] at hch
      subst hch
      exact ⟨h, hcl ▸ hle h⟩
  | para :: rest, chunk, clen, hrest, hcl, hle => by
    simp only [chunkLoop]
    split
    next hcond =>
      intro ch hch
      rcases List.mem_cons.mp hch with rfl | hch'
      · exact ⟨hcond.2, hcl ▸ hle hcond.2⟩
      · refine chunkLoop_weight lim rest [para] (para.length + 1)
          (fun p hp => hrest p (List.mem_cons_of_mem _ hp))
          (by simp [chunkWeight])
          (fun _ => hrest para (List.mem_cons_self _ _)) ch hch'
    next hcond =>
      intro ch hch
      refine chunkLoop_weight lim rest (chunk ++ [para]) (clen + para.length + 1)
        (fun p hp => hrest p (List.mem_cons_of_mem _ hp))
        (by simp [chunkWeight, hcl, List.map_append]; omega)
        ?_ ch hch
      intro _
      by_cases hc : chunk = []
      · subst hc
        simp only [chunkWeight, List.map_nil, List.sum_nil] at hcl
        subst hcl
        simpa using hrest para (List.mem_cons_self _ _)
      · push_neg at hcond
        exact Nat.le_of_not_lt (fun hlt => hc (hcond hlt))

theorem joinNL_append : ∀ {a b : List (List Char)}, a ≠ [] → b ≠ [] →
    joinNL (a ++ b) = joinNL a ++ '\n' :: joinNL b
  | [], _, ha, _ => absurd rfl ha
  | [p], b, _, hb => by
    rw [List.singleton_append, joinNL_cons_of_ne_nil hb]
    rfl
  | p :: q :: qs, b, _, hb => by
    rw [List.cons_append, joinNL_cons_of_ne_nil (by simp),
      joinNL_cons_of_ne_nil (List.cons_ne_nil q qs),
      @joinNL_append (q :: qs) b (by simp) hb, List.append_assoc]
    rfl

theorem chunkLoop_counts {M : Type} [AddCommMonoid M] (count : List Char → M)
    (hadd : ∀ a b, count (a ++ '\n' :: b) = count a + count b) (lim : Nat) :
    ∀ (rest chunk : List (List Char)) (clen : Nat),
      ((chunkLoop lim rest chunk clen).map (fun ch => count (joinNL ch))).sum =
        if chunk ++ rest = [] then 0 else count (joinNL (chunk ++ rest))
  | [], chunk, clen => by
    simp only [chunkLoop]
    split
    next h => simp [h]
    next h => simp [h]
  | para :: rest, chunk, clen => by
    simp only [chunkLoop]
    split
    next hcond =>
      rw [List.map_cons, List.sum_cons,
        chunkLoop_counts count hadd lim rest [para] (para.length + 1)]
      rw [if_neg (by simp), if_neg (by simp)]
      have hj : joinNL (chunk ++ para :: rest) =
          joinNL chunk ++ '\n' :: joinNL (para :: rest) :=
        joinNL_append hcond.2 (by simp)
      rw [hj, hadd, List.singleton_append]
    next hcond =>
      rw [chunkLoop_counts count hadd lim rest (chunk ++ [para]) (clen + para.length + 1)]
      have hre : (chunk ++ [para]) ++ rest = chunk ++ para :: rest := by simp
      rw [hre]

/-- Given a counter that is insensitive to chunk boundaries (additive
across a newline), chunked processing gives the same counts as
processing the whole text at once. -/
theorem extract_words_eq_count {M : Type} [AddCommMonoid M] (count : List Char → M)
    (hadd : ∀ a b, count (a ++ '\n' :: b) = count a + count b) (text : List Char) :
    extract_words count text = count text := by
  unfold extract_words
  split
  · rfl
  · rw [chunksOf, chunkLoop_counts count hadd CHUNK_SIZE (splitOnNewline text) [] 0]
    rw [List.nil_append, if_neg (splitOnNewline_ne_nil text), joinNL_splitOnNewline]

theorem splitOnNewline_no_newline : ∀ {l : List Char}, (∀ c ∈ l, c ≠ '\n') →
    splitOnNewline l = [l]
  | [], _ => rfl
  | c :: rest, h => by
    simp only [splitOnNewline]
    rw [if_neg (h c (List.mem_cons_self _ _)),
      splitOnNewline_no_newline (fun c' hc' => h c' (List.mem_cons_of_mem _ hc'))]

theorem chunksOf_single (lim : Nat) (p : List Char) : chunksOf lim [p] = [[p]] := by
  unfold chunksOf
  simp only [chunkLoop]
  rw [if_neg (by simp)]
  simp [chunkLoop]

/-- A single paragraph one character longer than the ceiling. -/
def bigPara : List Char := List.replicate (CHUNK_SIZE + 1) 'a'

theorem bigPara_split : splitOnNewline bigPara = [bigPara] :=
  splitOnNewline_no_newline (fun c hc => by
    rw [List.eq_of_mem_replicate hc]
    decide)

theorem bigPara_length : bigPara.length = CHUNK_SIZE + 1 := by
  simp [bigPara]

/-! ## `epub_parser.py`: `extract_chapters`

The EPUB/HTML layer (ebooklib, BeautifulSoup) is opaque; a document item
is abstracted to: whether its body HTML is blank, the length of its
whole-document plain text (`soup.get_text(strip=True)`), and the ordered
`h1/h2/h3/p/blockquote` elements with their extracted texts.  Texts are
character lists (Python `str`). -/

/-- A `h1/h2/h3` element (with its stripped text) or a `p/blockquote`
element (with its space-separated stripped text). -/
inductive EpubElem where
  | heading (text : List Char)
  | para (text : List Char)

/-- One `ITEM_DOCUMENT` of the EPUB. -/
structure EpubDoc where
  blank : Bool
  plainLen : Nat
  elems : List EpubElem

/-- `MIN_TEXT_LEN = 40`. -/
def MIN_TEXT_LEN : Nat := 40

def isHeadingElem : EpubElem → Bool
  | .heading _ => true
  | .para _ => false

/-- Python `str.strip()` whitespace set (the common cases). -/
def isPySpace (c : Char) : Bool :=
  c = ' ' || c = '\t' || c = '\n' || c = '\r' || c = '\x0b' || c = '\x0c'

/-- Python `str.strip()`. -/
def pyStrip (l : List Char) : List Char :=
  ((l.dropWhile isPySpace).reverse.dropWhile isPySpace).reverse

/-- `chapters.setdefault(k, []).append(t)`. -/
def chapAppend (m : List (Nat × List (List Char))) (k : Nat) (t : List Char) :
    List (Nat × List (List Char)) :=
  match m with
  | [] => [(k, [t])]
  | p :: rest => if p.1 = k then (p.1, p.2 ++ [t]) :: rest else p :: chapAppend rest k t

/-- `chapters.setdefault(k, [])` alone. -/
def ensureKey (m : List (Nat × List (List Char))) (k : Nat) :
    List (Nat × List (List Char)) :=
  if k ∈ keysOf m then m else m ++ [(k, [])]

/-- One element of the per-document loop: a heading with non-empty text
starts a new chapter; a paragraph/blockquote shorter than
`MIN_TEXT_LEN` is dropped, otherwise it is appended to the current
chapter. -/
def processElem (st : Nat × List (Nat × List (List Char))) (e : EpubElem) :
    Nat × List (Nat × List (List Char)) :=
  match e with
  | .heading t => if t ≠ [] then (st.1 + 1, ensureKey st.2 (st.1 + 1)) else st
  | .para t => if t = [] ∨ t.length < MIN_TEXT_LEN then st else (st.1, chapAppend st.2 st.1 t)

/-- One EPUB document item: blank bodies are skipped; a document with no
heading elements but more than 200 characters of plain text opens an
implicit new chapter; then the elements are processed in order. -/
def processDoc (st : Nat × List (Nat × List (List Char))) (d : EpubDoc) :
    Nat × List (Nat × List (List Char)) :=
  if d.blank then st
  else
    (if ¬ d.elems.any isHeadingElem = true ∧ 200 < d.plainLen then
      (st.1 + 1, ensureKey st.2 (st.1 + 1))
    else st) |> (fun st₁ => d.elems.foldl processElem st₁)

/-- `extract_chapters`: run all documents, then emit
`(ch_num, "\n".join(paragraphs))` for chapter numbers in sorted order,
skipping chapters whose joined text is blank after `strip()`. -/
def extract_chapters (docs : List EpubDoc) : List (Nat × List Char) :=
  (sortBy (fun a b => decide (a.1 ≤ b.1)) (docs.foldl processDoc (0, [])).2).filterMap
    (fun p => if pyStrip (joinNL p.2) ≠ [] then some (p.1, joinNL p.2) else none)

theorem keysOf_chapAppend :
    ∀ (m : List (Nat × List (List Char))) (k : Nat) (t : List Char),
      keysOf (chapAppend m k t) = if k ∈ keysOf m then keysOf m else keysOf m ++ [k]
  | [], k, t => by simp [chapAppend, keysOf]
  | p :: rest, k, t => by
    by_cases hp : p.1 = k
    · simp only [chapAppend, if_pos hp, keysOf_cons]
      rw [if_pos (hp ▸ List.mem_cons_self p.1 (keysOf rest))]
    · simp only [chapAppend, if_neg hp, keysOf_cons, keysOf_chapAppend rest k t]
      have hne : ¬ k = p.1 := fun h => hp h.symm
      by_cases hk : k ∈ keysOf rest
      · rw [if_pos hk, if_pos (List.mem_cons_of_mem _ hk)]
      · rw [if_neg hk, if_neg (by simp [List.mem_cons, hne, hk]), List.cons_append]

theorem nodup_keysOf_chapAppend {m : List (Nat × List (List Char))} {k : Nat}
    {t : List Char} (h : (keysOf m).Nodup) : (keysOf (chapAppend m k t)).Nodup := by
  rw [keysOf_chapAppend]
  split
  · exact h
  next hk => simpa [List.nodup_append, hk] using h

theorem nodup_keysOf_ensureKey {m : List (Nat × List (List Char))} {k : Nat}
    (h : (keysOf m).Nodup) : (keysOf (ensureKey m k)).Nodup := by
  unfold ensureKey
  split
  · exact h
  next hk => simpa [keysOf, List.nodup_append] using ⟨h, by simpa [keysOf] using hk⟩

theorem nodup_keysOf_processElem {st : Nat × List (Nat × List (List Char))}
    (h : (keysOf st.2).Nodup) (e : EpubElem) : (keysOf (processElem st e).2).Nodup := by
  cases e with
  | heading t =>
    simp only [processElem]
    split
    · exact nodup_keysOf_ensureKey h
    · exact h
  | para t =>
    simp only [processElem]
    split
    · exact h
    · exact nodup_keysOf_chapAppend h

theorem nodup_keysOf_foldl_processElem :
    ∀ (elems : List EpubElem) (st : Nat × List (Nat × List (List Char))),
      (keysOf st.2).Nodup → (keysOf (elems.foldl processElem st).2).Nodup
  | [], _, h => h
  | e :: rest, st, h =>
    nodup_keysOf_foldl_processElem rest _ (nodup_keysOf_processElem h e)

theorem nodup_keysOf_processDoc {st : Nat × List (Nat × List (List Char))}
    (h : (keysOf st.2).Nodup) (d : EpubDoc) : (keysOf (processDoc st d).2).Nodup := by
  unfold processDoc
  split
  · exact h
  · refine nodup_keysOf_foldl_processElem d.elems _ ?_
    split
    · exact nodup_keysOf_ensureKey h
    · exact h

theorem nodup_keysOf_foldl_processDoc :
    ∀ (docs : List EpubDoc) (st : Nat × List (Nat × List (List Char))),
      (keysOf st.2).Nodup → (keysOf (docs.foldl processDoc st).2).Nodup
  | [], _, h => h
  | d :: rest, st, h =>
    nodup_keysOf_foldl_processDoc rest _ (nodup_keysOf_processDoc h d)

theorem pyStrip_nil : pyStrip [] = [] := rfl

theorem chain_extract_chapters (docs : List EpubDoc) :
    (extract_chapters docs).Chain' (fun a b => a.1 < b.1) := by
  have hnd : (keysOf (docs.foldl processDoc (0, [])).2).Nodup :=
    nodup_keysOf_foldl_processDoc docs (0, []) (by simp [keysOf])
  have htot : ∀ a b : Nat × List (List Char),
      decide (a.1 ≤ b.1) = true ∨ decide (b.1 ≤ a.1) = true := by
    intro a b
    rcases Nat.le_total a.1 b.1 with h | h
    · exact Or.inl (decide_eq_true h)
    · exact Or.inr (decide_eq_true h)
  have htrans : ∀ a b c : Nat × List (List Char),
      decide (a.1 ≤ b.1) = true → decide (b.1 ≤ c.1) = true →
      decide (a.1 ≤ c.1) = true := by
    intro a b c h₁ h₂
    exact decide_eq_true (Nat.le_trans (of_decide_eq_true h₁) (of_decide_eq_true h₂))
  have hpw := pairwise_sortBy htot htrans (docs.foldl processDoc (0, [])).2
  have hne : (sortBy (fun a b => decide (a.1 ≤ b.1))
      (docs.foldl processDoc (0, [])).2).Pairwise (fun a b => a.1 ≠ b.1) :=
    ((perm_sortBy _ _).pairwise_iff (fun h => h.symm)).mpr (pairwise_fst_ne_of_nodup hnd)
  have hlt := (hpw.and hne).imp
    (fun {a b} h => lt_of_le_of_ne (of_decide_eq_true h.1) h.2)
  unfold extract_chapters
  refine (List.pairwise_filterMap.mpr (hlt.imp ?_)).chain'
  intro a b hab x hx y hy
  have hxa : x.1 = a.1 := by
    by_cases hc : pyStrip (joinNL a.2) ≠ []
    · rw [if_pos hc, Option.mem_some_iff] at hx
      rw [← hx]
    · rw [if_neg hc] at hx
      simp at hx
  have hyb : y.1 = b.1 := by
    by_cases hc : pyStrip (joinNL b.2) ≠ []
    · rw [if_pos hc, Option.mem_some_iff] at hy
      rw [← hy]
    · rw [if_neg hc] at hy
      simp at hy
  rw [hxa, hyb]
  exact hab

theorem extract_chapters_text_ne_nil {docs : List EpubDoc} :
    ∀ p ∈ extract_chapters docs, p.2 ≠ [] := by
  intro p hp
  unfold extract_chapters at hp
  rw [List.mem_filterMap] at hp
  obtain ⟨q, -, hq⟩ := hp
  by_cases hc : pyStrip (joinNL q.2) ≠ []
  · rw [if_pos hc, Option.some_inj] at hq
    have hp2 : p.2 = joinNL q.2 := by rw [← hq]
    intro hnil
    rw [hp2] at hnil
    rw [hnil, pyStrip_nil] at hc
    exact hc rfl
  · rw [if_neg hc] at hq
    exact absurd hq (by simp)

theorem extract_chapters_omits_blank (docs : List EpubDoc) :
    ∀ q ∈ (docs.foldl processDoc (0, [])).2, pyStrip (joinNL q.2) = [] →
      q.1 ∉ (extract_chapters docs).map Prod.fst := by
  intro q hq hstrip hmem
  have hnd : (keysOf (docs.foldl processDoc (0, [])).2).Nodup :=
    nodup_keysOf_foldl_processDoc docs (0, []) (by simp [keysOf])
  rw [List.mem_map] at hmem
  obtain ⟨p, hp, hp1⟩ := hmem
  unfold extract_chapters at hp
  rw [List.mem_filterMap] at hp
  obtain ⟨r, hr, hrp⟩ := hp
  by_cases hc : pyStrip (joinNL r.2) ≠ []
  · rw [if_pos hc, Option.some_inj] at hrp
    have hrq : r.1 = q.1 := by rw [← hp1, ← hrp]
    rw [mem_sortBy] at hr
    have h1 : lookupA r.1 (docs.foldl processDoc (0, [])).2 = some r.2 :=
      (mem_iff_lookupA hnd).mp (by exact hr)
    have h2 : lookupA q.1 (docs.foldl processDoc (0, [])).2 = some q.2 :=
      (mem_iff_lookupA hnd).mp (by exact hq)
    rw [hrq] at h1
    have hv : r.2 = q.2 := Option.some_inj.mp (h1.symm.trans h2)
    rw [hv, hstrip] at hc
    exact hc rfl
  · rw [if_neg hc] at hrp
    exact absurd hrp (by simp)

/-! ## `write_csv` of the parse stages (per-source dataset rows)

Rows `(word, total_count, unit_count, sorted unit breakdown)` sorted by
`(-total, word)`; the `episodes`/`chapters` string column is carried as
the sorted breakdown list it is rendered from. -/
def datasetRows [DecidableEq κ] (unitLe : κ × Nat → κ × Nat → Bool)
    (m : List (String × Nat × List (κ × Nat))) :
    List (String × Nat × Nat × List (κ × Nat)) :=
  sortBy (rowLe Prod.fst (fun r => r.2.1))
    (m.map (fun e => (e.1, e.2.1, e.2.2.length, sortBy unitLe e.2.2)))

theorem chain_datasetRows [DecidableEq κ] (unitLe : κ × Nat → κ × Nat → Bool)
    {m : List (String × Nat × List (κ × Nat))} (h : (keysOf m).Nodup) :
    (datasetRows unitLe m).Chain'
      (fun a b => b.2.1 < a.2.1 ∨ (a.2.1 = b.2.1 ∧ strLt a.1 b.1 = true)) := by
  refine chain'_sortBy_rows Prod.fst
    (fun r : String × Nat × Nat × List (κ × Nat) => r.2.1)
    (m.map (fun e => (e.1, e.2.1, e.2.2.length, sortBy unitLe e.2.2))) ?_
  rw [List.pairwise_map]
  exact pairwise_fst_ne_of_nodup h

/-- `ceil(n / d)` on naturals, for stating the spec's threshold formula. -/
def ceilDiv (n d : Nat) : Nat := (n + d - 1) / d

/-! ## The claims -/

/-- C1: in every combiner output (pool, unique, common, per-source
dataset), consecutive rows are sorted by strictly descending
count-or-membership with strictly ascending alphabetical order on the
word for ties. -/
theorem claim_C1 :
    (∀ items : List PoolItem,
      (buildPoolOut items).Chain'
        (fun a b => b.2.2 < a.2.2 ∨ (a.2.2 = b.2.2 ∧ strLt a.1 b.1 = true))) ∧
    (∀ u : WordMap, (keysOf u).Nodup →
      (uniqueRows u).Chain'
        (fun a b => b.2 < a.2 ∨ (a.2 = b.2 ∧ strLt a.1 b.1 = true))) ∧
    (∀ bw : List (String × WordMap), (∀ p ∈ bw, (keysOf p.2).Nodup) →
      (commonRows bw).Chain'
        (fun a b => b.2.1 < a.2.1 ∨ (a.2.1 = b.2.1 ∧ strLt a.1 b.1 = true))) ∧
    (∀ (unitLe : (Nat × Nat) × Nat → (Nat × Nat) × Nat → Bool)
      (m : List (String × Nat × List ((Nat × Nat) × Nat))), (keysOf m).Nodup →
      (datasetRows unitLe m).Chain'
        (fun a b => b.2.1 < a.2.1 ∨ (a.2.1 = b.2.1 ∧ strLt a.1 b.1 = true))) :=
  ⟨chain_buildPoolOut, fun _ h => chain_uniqueRows h, fun _ h => chain_commonRows h,
    fun unitLe _ h => chain_datasetRows unitLe h⟩

/-- C1 witness: the four sortedness facts at concrete inputs. -/
theorem claim_C1_witness :
    ((buildPoolOut [⟨"b1", some ["cat", "dog"], none⟩]).Chain'
      (fun a b => b.2.2 < a.2.2 ∨ (a.2.2 = b.2.2 ∧ strLt a.1 b.1 = true))) ∧
    ((uniqueRows [("dog", 2), ("cat", 2)]).Chain'
      (fun a b => b.2 < a.2 ∨ (a.2 = b.2 ∧ strLt a.1 b.1 = true))) ∧
    ((commonRows [("b1", [("cat", 3)]), ("b2", [("cat", 2)])]).Chain'
      (fun a b => b.2.1 < a.2.1 ∨ (a.2.1 = b.2.1 ∧ strLt a.1 b.1 = true))) ∧
    ((datasetRows (fun _ _ => true) [("cat", 3, [((1, 1), 3)])]).Chain'
      (fun a b => b.2.1 < a.2.1 ∨ (a.2.1 = b.2.1 ∧ strLt a.1 b.1 = true))) :=
  ⟨claim_C1.1 [⟨"b1", some ["cat", "dog"], none⟩],
    claim_C1.2.1 [("dog", 2), ("cat", 2)] (by decide),
    claim_C1.2.2.1 [("b1", [("cat", 3)]), ("b2", [("cat", 2)])] (by decide),
    claim_C1.2.2.2 (fun _ _ => true) [("cat", 3, [((1, 1), 3)])] (by decide)⟩

/-- C2: the common view contains exactly the words present in every
item's map, and each common word's reported total is the sum of its
per-item counts over all items. -/
theorem claim_C2 :
    ∀ bw : List (String × WordMap), bw ≠ [] → (keysOf bw).Nodup →
      ∀ w : String,
        ((∃ t cs, (w, t, cs) ∈ commonRows bw) ↔
          ∀ p ∈ bw, (lookupA w p.2).isSome = true) ∧
        (∀ t cs, (w, t, cs) ∈ commonRows bw →
          t = (bw.map (fun p => (lookupA w p.2).getD 0)).sum) :=
  fun _ hne hnames _ =>
    ⟨mem_commonRows_iff hne, fun _ _ h => commonRows_total hnames h⟩

/-- C2 witness: the common view of two concrete books at the word
`cat`. -/
theorem claim_C2_witness :
    ((∃ t cs, ("cat", t, cs) ∈ commonRows [("b1", [("cat", 3)]), ("b2", [("cat", 2), ("dog", 1)])]) ↔
      ∀ p ∈ [("b1", [("cat", 3)]), ("b2", [("cat", 2), ("dog", 1)])],
        (lookupA "cat" p.2).isSome = true) ∧
    (∀ t cs, ("cat", t, cs) ∈ commonRows [("b1", [("cat", 3)]), ("b2", [("cat", 2), ("dog", 1)])] →
      t = ([("b1", [("cat", 3)]), ("b2", [("cat", 2), ("dog", 1)])].map
        (fun p => (lookupA "cat" p.2).getD 0)).sum) :=
  claim_C2 [("b1", [("cat", 3)]), ("b2", [("cat", 2), ("dog", 1)])]
    (by decide) (by decide) "cat"

/-- C3: item A's unique view contains exactly the `(word, count)` pairs
of A's map whose word is absent from every other item's map. -/
theorem claim_C3 :
    ∀ (bw : List (String × WordMap)) (name : String) (m : WordMap),
      (name, m) ∈ bw →
      ∀ (w : String) (c : Nat),
        (w, c) ∈ uniqueRows (uniqueFor bw name m) ↔
          (w, c) ∈ m ∧ ∀ p ∈ bw, p.1 ≠ name → lookupA w p.2 = none :=
  fun _ _ _ _ _ _ => mem_uniqueRows_iff

/-- C3 witness: the unique view of book `b1` at the word `dog`. -/
theorem claim_C3_witness :
    ("dog", 1) ∈ uniqueRows (uniqueFor
        [("b1", [("cat", 3), ("dog", 1)]), ("b2", [("cat", 2)])] "b1"
        [("cat", 3), ("dog", 1)]) ↔
      ("dog", 1) ∈ [("cat", 3), ("dog", 1)] ∧
      ∀ p ∈ [("b1", [("cat", 3), ("dog", 1)]), ("b2", [("cat", 2)])],
        p.1 ≠ "b1" → lookupA "dog" p.2 = none :=
  claim_C3 [("b1", [("cat", 3), ("dog", 1)]), ("b2", [("cat", 2)])] "b1"
    [("cat", 3), ("dog", 1)] (by decide) "dog" 1

/-- Three artists: `w` is in two of them; with `pct = 90` the code keeps
`w` (threshold `max(1, int(3 * 90 / 100)) = 2`) while the spec's
`ceil(3 * 90 / 100) = 3` would drop it. -/
def c4files : List (String × List String) := [("a", ["w", "x"]), ("b", ["w", "y"]), ("c", ["z"])]

/-- C4 counterexample: at three artists and `pct = 90`, membership in the
threshold output is not equivalent to being present in at least
`ceil(N * pct / 100)` items. -/
theorem claim_C4_counterexample :
    ¬ (("w" ∈ thresholdWords c4files 90) ↔
      ceilDiv ((presentArtists c4files).length * 90) 100 ≤
        ((presentArtists c4files).filter (fun p => decide ("w" ∈ p.2))).length) := by
  decide

/-- C4 (amended): the threshold output for `pct` contains exactly the
words present in at least `max(1, floor(N * pct / 100))` items. -/
theorem claim_C4_amended :
    ∀ (files : List (String × List String)) (pct : Nat),
      (∀ p ∈ files, p.2.Nodup) →
      ∀ w, w ∈ thresholdWords files pct ↔
        minArtists (presentArtists files).length pct ≤
          ((presentArtists files).filter (fun p => decide (w ∈ p.2))).length :=
  fun _ _ h _ => mem_thresholdWords_iff h

/-- C4 witness: the amended threshold formula at the counterexample
input. -/
theorem claim_C4_amended_witness :
    "w" ∈ thresholdWords c4files 90 ↔
      minArtists (presentArtists c4files).length 90 ≤
        ((presentArtists c4files).filter (fun p => decide ("w" ∈ p.2))).length :=
  claim_C4_amended c4files 90 (by decide) "w"

/-- C5: in every map produced by a parse stage, each word's
`total_count` equals the sum of its per-unit breakdown counts, and each
word is a key at most once. -/
theorem claim_C5 :
    (∀ units : List ((Nat × Nat) × List (String × Nat)),
      (units.map Prod.fst).Nodup → (∀ u ∈ units, (u.2.map Prod.fst).Nodup) →
      (∀ e ∈ process_show units, e.2.1 = (e.2.2.map Prod.snd).sum) ∧
      (keysOf (process_show units)).Nodup) ∧
    (∀ chapters : List (Nat × List (String × Nat)),
      (chapters.map Prod.fst).Nodup → (∀ u ∈ chapters, (u.2.map Prod.fst).Nodup) →
      (∀ e ∈ process_book chapters, e.2.1 = (e.2.2.map Prod.snd).sum) ∧
      (keysOf (process_book chapters)).Nodup) := by
  constructor
  · intro units h1 h2
    refine ⟨?_, nodup_keysOf_processUnits updAssign units⟩
    exact inv_processUnits (fun br k c h => updAssign_fresh h) updAssign_keys_sub
      units [] h1 h2 (by simp) (by simp)
  · intro chapters h1 h2
    refine ⟨?_, nodup_keysOf_processUnits updAdd chapters⟩
    exact inv_processUnits (fun br k c h => updAdd_fresh h) updAdd_keys_sub
      chapters [] h1 h2 (by simp) (by simp)

/-- C5 witness: two episodes and two chapters with overlapping words. -/
theorem claim_C5_witness :
    ((∀ e ∈ process_show [((1, 1), [("cat", 2)]), ((1, 2), [("cat", 1), ("dog", 1)])],
      e.2.1 = (e.2.2.map Prod.snd).sum) ∧
      (keysOf (process_show [((1, 1), [("cat", 2)]), ((1, 2), [("cat", 1), ("dog", 1)])])).Nodup) ∧
    ((∀ e ∈ process_book [(1, [("cat", 2)]), (2, [("cat", 1)])],
      e.2.1 = (e.2.2.map Prod.snd).sum) ∧
      (keysOf (process_book [(1, [("cat", 2)]), (2, [("cat", 1)])])).Nodup) :=
  ⟨claim_C5.1 [((1, 1), [("cat", 2)]), ((1, 2), [("cat", 1), ("dog", 1)])]
      (by decide) (by decide),
    claim_C5.2 [(1, [("cat", 2)]), (2, [("cat", 1)])] (by decide) (by decide)⟩

/-- C6 counterexample: `build_unique.py` with one missing `dataset.csv`
exits non-zero instead of skipping the item. -/
theorem claim_C6_counterexample :
    (buildUniqueMain [("a", some [("x", 1)]), ("b", none)]).isOk = false := by
  decide

/-- C6 (amended): the pool combiners skip an item whose words file is
missing and produce the output of the remaining items, but the
`build_unique` combiners exit non-zero on any missing `dataset.csv`. -/
theorem claim_C6_amended :
    (∀ (pre post : List PoolItem) (label : String) (excl : Option (List String)),
      buildPoolOut (pre ++ ⟨label, none, excl⟩ :: post) = buildPoolOut (pre ++ post)) ∧
    (∀ (items : List (String × Option WordMap)) (n : String),
      (n, none) ∈ items → (buildUniqueMain items).isOk = false) :=
  ⟨buildPoolOut_skips_missing, fun _ _ h => buildUniqueMain_missing_fatal h⟩

/-- C6 witness: a concrete skipped pool item and a concrete fatal
missing dataset. -/
theorem claim_C6_amended_witness :
    buildPoolOut [⟨"a", some ["x"], none⟩, ⟨"b", none, none⟩] =
      buildPoolOut [⟨"a", some ["x"], none⟩] ∧
    (buildUniqueMain [("a", some [("x", 1)]), ("b", none)]).isOk = false := by
  constructor
  · have h := claim_C6_amended.1 [⟨"a", some ["x"], none⟩] [] "b" none
    simpa using h
  · exact claim_C6_amended.2 [("a", some [("x", 1)]), ("b", none)] "b" (by decide)

/-- C7 counterexample: the lyrics `build_common_words.py` with a single
source item completes normally (exit 0) and produces output. -/
theorem claim_C7_counterexample :
    (buildCommonWordsMain [("a", ["hello"])]).isSome = true := by
  decide

/-- C7 (amended): the `build_unique` scripts exit non-zero with fewer
than two configured items; the lyrics `build_common_words` script
instead completes with exit 0 and produces output whenever at least one
artist has words. -/
theorem claim_C7_amended :
    (∀ items : List (String × Option WordMap), items.length < 2 →
      buildUniqueMain items = Except.error "need at least 2 items") ∧
    (∀ files : List (String × List String), presentArtists files ≠ [] →
      (buildCommonWordsMain files).isSome = true) := by
  constructor
  · exact fun _ h => buildUniqueMain_too_few h
  · intro files h
    unfold buildCommonWordsMain
    rw [if_neg h]
    rfl

/-- C7 witness: one configured book aborts `build_unique`; one artist
file suffices for `build_common_words`. -/
theorem claim_C7_amended_witness :
    buildUniqueMain [("a", some [("x", 1)])] = Except.error "need at least 2 items" ∧
    (buildCommonWordsMain [("a", ["hello"])]).isSome = true :=
  ⟨claim_C7_amended.1 [("a", some [("x", 1)])] (by decide),
    claim_C7_amended.2 [("a", ["hello"])] (by decide)⟩

/-- C8 counterexample: a single paragraph of `CHUNK_SIZE + 1` characters
exceeds the ceiling, and the chunk it lands in does too — chunks do not
always stay under the ceiling. -/
theorem claim_C8_counterexample :
    CHUNK_SIZE < bigPara.length ∧
    ¬ (∀ ch ∈ chunksOf CHUNK_SIZE (splitOnNewline bigPara),
        (joinNL ch).length ≤ CHUNK_SIZE) := by
  constructor
  · rw [bigPara_length]
    exact Nat.lt_succ_self _
  · intro h
    have hmem : [bigPara] ∈ chunksOf CHUNK_SIZE (splitOnNewline bigPara) := by
      rw [bigPara_split, chunksOf_single]
      exact List.mem_singleton.mpr rfl
    have hlen := h [bigPara] hmem
    rw [show joinNL [bigPara] = bigPara from rfl, bigPara_length] at hlen
    omega

/-- C8 (amended): for over-ceiling texts, chunks stay under the ceiling
provided every paragraph (plus its newline) fits within the ceiling — a
single over-ceiling paragraph becomes an over-ceiling chunk of its own;
chunk boundaries never split a paragraph (the chunks concatenate back to
the paragraph list); and for any newline-additive counter the summed
per-chunk counts equal the whole-text counts. -/
theorem claim_C8_amended {M : Type} [AddCommMonoid M] (count : List Char → M)
    (text : List Char)
    (hlen : CHUNK_SIZE < text.length)
    (hadd : ∀ a b, count (a ++ '\n' :: b) = count a + count b) :
    ((∀ p ∈ splitOnNewline text, p.length + 1 ≤ CHUNK_SIZE) →
      ∀ ch ∈ chunksOf CHUNK_SIZE (splitOnNewline text),
        (joinNL ch).length < CHUNK_SIZE) ∧
    (chunksOf CHUNK_SIZE (splitOnNewline text)).join = splitOnNewline text ∧
    extract_words count text = count text := by
  refine ⟨?_, ?_, extract_words_eq_count count hadd text⟩
  · intro hp ch hch
    obtain ⟨hne, hw⟩ := chunkLoop_weight CHUNK_SIZE (splitOnNewline text) [] 0 hp
      (by simp [chunkWeight]) (fun h => absurd rfl h) ch hch
    have := joinNL_length hne
    omega
  · simpa [chunksOf] using chunkLoop_join CHUNK_SIZE (splitOnNewline text) [] 0

/-- C8 witness: the amended statement at the over-ceiling one-paragraph
text, with the trivial (vacuously newline-additive) counter. -/
theorem claim_C8_amended_witness :
    ((∀ p ∈ splitOnNewline bigPara, p.length + 1 ≤ CHUNK_SIZE) →
      ∀ ch ∈ chunksOf CHUNK_SIZE (splitOnNewline bigPara),
        (joinNL ch).length < CHUNK_SIZE) ∧
    (chunksOf CHUNK_SIZE (splitOnNewline bigPara)).join = splitOnNewline bigPara ∧
    extract_words (fun _ => (0 : Nat)) bigPara = 0 :=
  claim_C8_amended (fun _ => (0 : Nat)) bigPara
    (by simp [bigPara_length]) (fun a b => by simp)

/-- C9: the combiner outputs are byte-identical across runs — they are
functions of the input word *sets*, independent of the iteration order
of Python `set`s/`dict`s (here: of the permutation in which each set is
presented). -/
theorem claim_C9 :
    (∀ items₁ items₂ : List PoolItem,
      List.Forall₂ PoolItemEquiv items₁ items₂ →
      (∀ it ∈ items₁, ∀ ws, it.wordsFile = some ws → ws.Nodup) →
      (∀ it ∈ items₂, ∀ ws, it.wordsFile = some ws → ws.Nodup) →
      buildPoolOut items₁ = buildPoolOut items₂) ∧
    (∀ files₁ files₂ : List (String × List String),
      List.Forall₂ (fun p q => p.1 = q.1 ∧ p.2.Perm q.2) files₁ files₂ →
      (∀ p ∈ files₁, p.2.Nodup) → (∀ p ∈ files₂, p.2.Nodup) →
      buildCommonWordsMain files₁ = buildCommonWordsMain files₂) :=
  ⟨fun _ _ h h1 h2 => buildPoolOut_deterministic h h1 h2,
    fun _ _ h h1 h2 => buildCommonWordsMain_deterministic h h1 h2⟩

/-- C9 witness: permuting a word set changes neither `common_pool.csv`
nor the `common_words` outputs. -/
theorem claim_C9_witness :
    buildPoolOut [⟨"b1", some ["cat", "dog"], none⟩] =
      buildPoolOut [⟨"b1", some ["dog", "cat"], none⟩] ∧
    buildCommonWordsMain [("a", ["u", "v"])] = buildCommonWordsMain [("a", ["v", "u"])] := by
  constructor
  · refine claim_C9.1 [⟨"b1", some ["cat", "dog"], none⟩]
      [⟨"b1", some ["dog", "cat"], none⟩] ?_ (by decide) (by decide)
    refine List.Forall₂.cons ⟨rfl, Or.inr ⟨["cat", "dog"], ["dog", "cat"], rfl, rfl, ?_⟩,
      fun w => Iff.rfl⟩ List.Forall₂.nil
    decide
  · refine claim_C9.2 [("a", ["u", "v"])] [("a", ["v", "u"])] ?_ (by decide) (by decide)
    refine List.Forall₂.cons ⟨rfl, ?_⟩ List.Forall₂.nil
    decide

/-- C10: `extract_chapters` returns pairs with strictly increasing
chapter numbers, every emitted text is non-empty, and chapters whose
accumulated text is blank are omitted. -/
theorem claim_C10 :
    ∀ docs : List EpubDoc,
      (extract_chapters docs).Chain' (fun a b => a.1 < b.1) ∧
      (∀ p ∈ extract_chapters docs, p.2 ≠ []) ∧
      (∀ q ∈ (docs.foldl processDoc (0, [])).2,
        pyStrip (joinNL q.2) = [] → q.1 ∉ (extract_chapters docs).map Prod.fst) :=
  fun docs => ⟨chain_extract_chapters docs, extract_chapters_text_ne_nil,
    extract_chapters_omits_blank docs⟩

/-- C10 witness: a two-document EPUB with a heading chapter, an implicit
chapter and an empty chapter. -/
theorem claim_C10_witness :
    (extract_chapters [⟨false, 300,
        [EpubElem.heading ['C'], EpubElem.para (List.replicate 45 'x'),
          EpubElem.heading ['D']]⟩]).Chain' (fun a b => a.1 < b.1) ∧
    (∀ p ∈ extract_chapters [⟨false, 300,
        [EpubElem.heading ['C'], EpubElem.para (List.replicate 45 'x'),
          EpubElem.heading ['D']]⟩], p.2 ≠ []) ∧
    (∀ q ∈ (([⟨false, 300,
        [EpubElem.heading ['C'], EpubElem.para (List.replicate 45 'x'),
          EpubElem.heading ['D']]⟩] : List EpubDoc).foldl processDoc (0, [])).2,
      pyStrip (joinNL q.2) = [] →
        q.1 ∉ (extract_chapters [⟨false, 300,
          [EpubElem.heading ['C'], EpubElem.para (List.replicate 45 'x'),
            EpubElem.heading ['D']]⟩]).map Prod.fst) :=
  claim_C10 [⟨false, 300,
    [EpubElem.heading ['C'], EpubElem.para (List.replicate 45 'x'),
      EpubElem.heading ['D']]⟩]
